import Mathlib

set_option maxHeartbeats 1000000
set_option maxRecDepth 40000

/-!
Verification of a 9×9 sudoku solver (wave-function-collapse style:
constraint propagation with checkpoint-based backtracking).

The solver owns a 9×9 grid of cells; each cell is either collapsed to a
fixed digit or holds a finite set of remaining candidate digits.  The main
loop repeatedly collapses an uncollapsed cell of lowest entropy, saves a
checkpoint when alternative candidates were discarded, propagates the
chosen value to all related cells, and restores the latest checkpoint when
propagation would empty a candidate set.  The embedding below translates
the solver (sudoku.rs) into pure state-passing functions; the mutable
`&mut self` methods become functions from solver state to solver state,
and fallible operations return `Except`.  The `debug_view` string field of
the Rust struct is a rendering aid with no effect on solving and is
omitted.  Iteration order of Rust `HashSet`s is unspecified; the embedding
iterates set contents in row-major order, which is immaterial for every
property proved here (success/failure of a propagation pass and the board
it produces on success do not depend on the order the distinct relative
cells are visited in).
-/

/-- Modelled from the spec: the missing `point.rs` defines `Point`, a 2-D
integer coordinate with value equality; both components of a board
coordinate lie in [0, 9). -/
structure Point where
  x : Fin 9
  y : Fin 9
deriving DecidableEq

instance : Fintype Point :=
  Fintype.ofEquiv (Fin 9 × Fin 9)
    { toFun := fun q => ⟨q.1, q.2⟩
      invFun := fun p => (p.x, p.y)
      left_inv := fun q => rfl
      right_inv := fun p => rfl }

/-- Modelled from the spec: the missing `cell.rs` defines `Cell`, a tagged
union of a fixed digit (`Collapsed`) and a set of remaining candidate
digits (`Uncollapsed`). -/
inductive Cell where
  | collapsed (v : ℕ)
  | uncollapsed (s : Finset ℕ)
deriving DecidableEq

namespace Cell

/-- Modelled from the spec: `new_empty()` returns an Uncollapsed cell with
all nine digits as candidates. -/
def new_empty : Cell := uncollapsed (Finset.Icc 1 9)

/-- Modelled from the spec: `new_filled(v)` returns `Collapsed(v)`; the
caller guarantees `v` is in [1,9]. -/
def new_filled (v : ℕ) : Cell := collapsed v

/-- Modelled from the spec: `entropy()` is 1 for a Collapsed cell and the
candidate-set size for an Uncollapsed cell. -/
def get_entropy : Cell → ℕ
  | collapsed _ => 1
  | uncollapsed s => s.card

/-- Whether a cell is the Collapsed variant. -/
def isCollapsed : Cell → Bool
  | collapsed _ => true
  | uncollapsed _ => false

/-- Modelled from the spec: `remove(v)` removes digit v from an
Uncollapsed cell's candidate set and fails with a Contradiction when the
removal empties the set; on a Collapsed cell removing its own value is a
contradiction and removing any other value is a no-op. -/
def remove (v : ℕ) : Cell → Except Unit Cell
  | collapsed w => if w = v then .error () else .ok (collapsed w)
  | uncollapsed s => if s.erase v = ∅ then .error () else .ok (uncollapsed (s.erase v))

/-- Lowest remaining candidate of a candidate set (0 if the set is empty,
which violates the caller contract and never occurs on reachable boards). -/
def chooseMin (s : Finset ℕ) : ℕ := if h : s.Nonempty then s.min' h else 0

/-- Modelled from the spec: `collapse()` on an Uncollapsed cell picks the
lowest remaining candidate as the chosen value, turns the cell into
`Collapsed(chosen)`, and returns the shadow value: an Uncollapsed cell
holding the original candidates minus the chosen one.  The embedding
returns the pair (chosen value, shadow); the caller stores
`Collapsed(chosen)` into the board.  Calling it on a Collapsed cell
violates the precondition; the embedding then returns the cell's own value
and an empty shadow. -/
def collapse : Cell → ℕ × Cell
  | collapsed v => (v, uncollapsed ∅)
  | uncollapsed s => (chooseMin s, uncollapsed (s.erase (chooseMin s)))

/-- Well-formedness of a cell as maintained by the Rust representation: a
collapsed digit lies in [1,9]; an uncollapsed candidate set is a nonempty
subset of [1,9]. -/
def WF : Cell → Prop
  | collapsed v => 1 ≤ v ∧ v ≤ 9
  | uncollapsed s => (∀ d ∈ s, 1 ≤ d ∧ d ≤ 9) ∧ s.Nonempty

instance : DecidablePred WF := by
  intro c
  cases c with
  | collapsed v => exact inferInstanceAs (Decidable (_ ∧ _))
  | uncollapsed s => exact inferInstanceAs (Decidable (_ ∧ _))

end Cell

/-- The board: a 9×9 mapping from coordinates to cells
(`Vec<Vec<Cell>>` indexed as `board[y][x]` in the source). -/
abbrev Board := Point → Cell

/-- A starting grid: a 9×9 array of digits, 0 meaning blank
(`[[u8; 9]; 9]` indexed as `starting_state[y][x]` in the source). -/
abbrev Grid := Point → ℕ

/-- The solver state: the live board plus the stack of previously saved
boards (checkpoints), most recent first (`previous_states` in the source;
Rust pushes/pops at the vector's end, the embedding at the list's head). -/
structure SudokuSolver where
  board : Board
  previous_states : List Board
deriving DecidableEq

/-- All 81 coordinates in row-major order (y outer, x inner), the order in
which the source's nested loops visit the board. -/
def allPoints : List Point :=
  (List.finRange 9).flatMap fun y => (List.finRange 9).map fun x => ⟨x, y⟩

namespace SudokuSolver

/-- Coordinates of row y (`get_row`). -/
def get_row (y : Fin 9) : Finset Point :=
  Finset.image (fun x => ⟨x, y⟩) Finset.univ

/-- Coordinates of column x (`get_column`). -/
def get_column (x : Fin 9) : Finset Point :=
  Finset.image (fun y => ⟨x, y⟩) Finset.univ

/-- Top-left corner of the 3×3 region containing the cell
(`get_region_coords`: `Point::new(x / 3, y / 3) * 3`). -/
def get_region_coords (p : Point) : Point :=
  ⟨⟨p.x.val / 3 * 3, by have h := p.x.isLt; omega⟩,
   ⟨p.y.val / 3 * 3, by have h := p.y.isLt; omega⟩⟩

/-- Coordinates of the 3×3 region containing the cell (`get_region`:
both coordinates range over the three values starting at the region
corner). -/
def get_region (p : Point) : Finset Point :=
  Finset.univ.filter fun q =>
    ((get_region_coords p).x.val ≤ q.x.val ∧ q.x.val < (get_region_coords p).x.val + 3) ∧
    ((get_region_coords p).y.val ≤ q.y.val ∧ q.y.val < (get_region_coords p).y.val + 3)

/-- Relatives of a coordinate (`get_relatives`): union of its row, column
and region, with the coordinate itself removed. -/
def get_relatives (p : Point) : Finset Point :=
  ((get_row p.y ∪ get_column p.x) ∪ get_region p).erase p

/-- The relatives as a list, in row-major order (the source materialises
the `HashSet` into a `Vec` in unspecified order). -/
def relativesList (p : Point) : List Point :=
  allPoints.filter fun q => q ∈ get_relatives p

/-- One propagation pass (the loop body of `propagate_collapse`): remove
`v` from each listed cell in turn, stopping at the first contradiction.
The error payload is the board as updated so far, matching the partially
propagated `self.board` the Rust method leaves behind on failure. -/
def removeAll (v : ℕ) : Board → List Point → Except Board Board
  | b, [] => .ok b
  | b, q :: qs =>
    match (b q).remove v with
    | .error _ => .error b
    | .ok c => removeAll v (Function.update b q c) qs

/-- Propagate a newly fixed value to every relative coordinate
(`propagate_collapse`). -/
def propagate_collapse (b : Board) (p : Point) (v : ℕ) : Except Board Board :=
  removeAll v b (relativesList p)

/-- The scan loop of `get_coords_of_uncollapsed_cell_with_lowest_entropy`:
walk the remaining coordinates keeping the best candidate so far and its
entropy (initially none and `u8::MAX` = 255); a cell replaces the best one
only when its entropy is strictly lower. -/
def findLowest (b : Board) : List Point → Option Point → ℕ → Option Point
  | [], best, _ => best
  | p :: ps, best, low =>
    if (b p).isCollapsed then findLowest b ps best low
    else if (b p).get_entropy < low then findLowest b ps (some p) ((b p).get_entropy)
    else findLowest b ps best low

/-- Coordinates of the first (row-major) uncollapsed cell of minimal
entropy, if any uncollapsed cell exists. -/
def get_coords_of_uncollapsed_cell_with_lowest_entropy (b : Board) : Option Point :=
  findLowest b allPoints none 255

/-- Collapse the cell at the given coordinates, push a checkpoint if the
cell had more than one candidate, and propagate the chosen value
(`collapse_cell_and_save_state`).  The checkpoint is the board after the
collapse with the collapsed cell overwritten by the shadow value, i.e. the
pre-collapse board with only that cell replaced by the shadow.  On
propagation failure the error payload is the state as the Rust method
leaves it: partially propagated board, checkpoint already pushed. -/
def collapse_cell_and_save_state (s : SudokuSolver) (p : Point) :
    Except SudokuSolver SudokuSolver :=
  let cell := s.board p
  let should_save := 1 < cell.get_entropy
  let chosen := (cell.collapse).1
  let shadow := (cell.collapse).2
  let collapsedBoard := Function.update s.board p (Cell.collapsed chosen)
  let stack1 :=
    if should_save then Function.update collapsedBoard p shadow :: s.previous_states
    else s.previous_states
  match propagate_collapse collapsedBoard p chosen with
  | .ok b2 => .ok ⟨b2, stack1⟩
  | .error bErr => .error ⟨bErr, stack1⟩

/-- One iteration of the solve loop (`solve_iteration`): pick the
uncollapsed cell of lowest entropy and collapse it; report `true` when no
uncollapsed cell remains (the sudoku is solved), `false` to continue, and
an error on a propagation contradiction. -/
def solve_iteration (s : SudokuSolver) : Except SudokuSolver (Bool × SudokuSolver) :=
  match get_coords_of_uncollapsed_cell_with_lowest_entropy s.board with
  | some p => (collapse_cell_and_save_state s p).map fun s1 => (false, s1)
  | none => .ok (true, s)

/-- The solve loop (`solve`) with explicit fuel: on a contradiction pop
the most recent checkpoint and continue from it; with no checkpoint left
the sudoku is unsolvable and the loop breaks with an error.  `none` means
the fuel ran out; the totality theorem below shows `fuelBound` fuel always
suffices. -/
def solveFuel : ℕ → SudokuSolver → Option (Except SudokuSolver SudokuSolver)
  | 0, _ => none
  | n + 1, s =>
    match solve_iteration s with
    | .ok (true, s1) => some (.ok s1)
    | .ok (false, s1) => solveFuel n s1
    | .error e =>
      match e.previous_states with
      | b :: rest => solveFuel n ⟨b, rest⟩
      | [] => some (.error e)

/-- Number of strictly-superfluous candidates of a cell (entropy minus
one); used only by the termination measure. -/
def wCell : Cell → ℕ
  | Cell.collapsed _ => 0
  | Cell.uncollapsed s => s.card - 1

/-- Total superfluous-candidate weight of a board. -/
def boardWeight (b : Board) : ℕ := ∑ p : Point, wCell (b p)

/-- Number of uncollapsed cells of a board. -/
def uncount (b : Board) : ℕ :=
  (Finset.univ.filter fun p => ¬((b p).isCollapsed = true)).card

/-- Combined weight of a checkpoint stack. -/
def stackWeight (l : List Board) : ℕ := (l.map fun b => 3 ^ boardWeight b).sum

/-- Termination measure of a solver state: strictly decreases on every
non-terminal iteration of the solve loop. -/
def stateMeasure (s : SudokuSolver) : ℕ :=
  82 * (3 ^ boardWeight s.board + stackWeight s.previous_states) + uncount s.board

/-- Fuel that provably suffices to run the solve loop to completion. -/
def fuelBound (s : SudokuSolver) : ℕ := stateMeasure s + 1

/-- The solve loop (`solve`), run with sufficient fuel.  The result
carries the final solver state (Rust mutates `self` in place); `.ok` means
solved, `.error` means `SudokuIsUnsolvable`.  The `getD` default is never
used (see the totality theorem). -/
def solve (s : SudokuSolver) : Except SudokuSolver SudokuSolver :=
  (solveFuel (fuelBound s) s).getD (.error s)

/-- One processing step of `SudokuSolver::new`: a zero grid entry is
skipped; a nonzero entry overwrites its cell with `Collapsed(value)` and
propagates the value to all relatives, any contradiction aborting
construction. -/
def init_step (g : Grid) (b : Board) (p : Point) : Except Unit Board :=
  if g p = 0 then .ok b
  else
    match propagate_collapse (Function.update b p (Cell.new_filled (g p))) p (g p) with
    | .ok b2 => .ok b2
    | .error _ => .error ()

/-- The initialization fold of `SudokuSolver::new` over a list of
coordinates. -/
def initFold (g : Grid) : Board → List Point → Except Unit Board
  | b, [] => .ok b
  | b, p :: ps =>
    match init_step g b p with
    | .ok b2 => initFold g b2 ps
    | .error _ => .error ()

/-- The starting board: every cell empty with all nine candidates. -/
def emptyBoard : Board := fun _ => Cell.new_empty

/-- Construct a solver from a starting grid (`SudokuSolver::new`): every
cell starts with all nine candidates, then each nonzero entry is collapsed
and propagated in row-major order; a contradiction in the given digits
yields `ErrorSudokuContainsAContradiction` (embedded as `Unit`).  The
checkpoint stack starts empty. -/
def new (g : Grid) : Except Unit SudokuSolver :=
  (initFold g emptyBoard allPoints).map fun b => ⟨b, []⟩

/-- Digits 1 through 9 (the `HashSet::from([1, ..., 9])` of
`check_if_hash_has_all_digits`). -/
def digitsAll : Finset ℕ := Finset.Icc 1 9

/-- Digits read from a set of coordinates (`points_to_digits`): a
collapsed cell contributes its value, an uncollapsed cell contributes 0;
the result is a set, duplicates collapse. -/
def points_to_digits (b : Board) (pts : Finset Point) : Finset ℕ :=
  pts.image fun p =>
    match b p with
    | Cell.collapsed v => v
    | Cell.uncollapsed _ => 0

/-- Whether a digit set consists of all digits 1–9
(`check_if_hash_has_all_digits`: every element of the set is removable
from {1,…,9}, and afterwards nothing of {1,…,9} remains). -/
def check_if_hash_has_all_digits (h : Finset ℕ) : Bool :=
  decide (h ⊆ digitsAll) && decide (digitsAll \ h = ∅)

/-- Check one unit of the board (`check_if_points_have_all_digits`). -/
def check_if_points_have_all_digits (b : Board) (pts : Finset Point) : Bool :=
  check_if_hash_has_all_digits (points_to_digits b pts)

/-- Check all rows (`check_rows`). -/
def check_rows (b : Board) : Bool :=
  (List.finRange 9).all fun y => check_if_points_have_all_digits b (get_row y)

/-- Check all columns (`check_columns`). -/
def check_columns (b : Board) : Bool :=
  (List.finRange 9).all fun x => check_if_points_have_all_digits b (get_column x)

/-- The region anchors [0, 3, 6] iterated by `check_regions`. -/
def regionAnchors : List (Fin 9) := [0, 3, 6]

/-- Check all nine 3×3 regions (`check_regions`). -/
def check_regions (b : Board) : Bool :=
  regionAnchors.all fun y => regionAnchors.all fun x =>
    check_if_points_have_all_digits b (get_region ⟨x, y⟩)

/-- Verify the finished board (`check_if_correct`): every row, column and
region must contain each digit 1–9 exactly once.  A pure query on the
board. -/
def check_if_correct (b : Board) : Bool :=
  check_rows b && check_columns b && check_regions b

end SudokuSolver

open SudokuSolver

/-- One observable step of the solve loop: either a successful iteration
that continues, or a contradiction recovered by popping the most recent
checkpoint and restoring it as the live board. -/
inductive SolveStep : SudokuSolver → SudokuSolver → Prop where
  | cont {s s1 : SudokuSolver} :
      solve_iteration s = .ok (false, s1) → SolveStep s s1
  | backtrack {s e : SudokuSolver} {b : Board} {rest : List Board} :
      solve_iteration s = .error e → e.previous_states = b :: rest →
      SolveStep s ⟨b, rest⟩

/-- States visited by the solve loop when started from `s`. -/
def Reaches (s t : SudokuSolver) : Prop := Relation.ReflTransGen SolveStep s t

/-- Two distinct coordinates are related when one lies among the relatives
of the other (same row, column or 3×3 region). -/
def Related (p q : Point) : Prop := q ∈ get_relatives p

instance : DecidableRel Related := fun p q =>
  inferInstanceAs (Decidable (q ∈ get_relatives p))

/-- Row-major rank of a coordinate, the order of the source's scans. -/
def rmIndex (p : Point) : ℕ := 9 * p.y.val + p.x.val

/-- A total assignment of digits that satisfies the sudoku constraints:
all values in [1,9] and no two related cells equal. -/
def ValidAssign (f : Point → ℕ) : Prop :=
  (∀ p, f p ∈ Finset.Icc 1 9) ∧ ∀ p q, Related p q → f p ≠ f q

/-- A solution of a starting grid: a valid assignment agreeing with every
given (nonzero) digit. -/
def IsSolution (g : Grid) (f : Point → ℕ) : Prop :=
  ValidAssign f ∧ ∀ p, g p ≠ 0 → f p = g p

/-- An assignment is compatible with a board when it matches every
collapsed cell and picks a remaining candidate of every uncollapsed
cell. -/
def Fits (b : Board) (f : Point → ℕ) : Prop :=
  ∀ p, match b p with
    | Cell.collapsed v => f p = v
    | Cell.uncollapsed s => f p ∈ s

/-- Well-formed board: every cell well-formed. -/
def BoardWF (b : Board) : Prop := ∀ p, Cell.WF (b p)

instance (b : Board) : Decidable (BoardWF b) :=
  inferInstanceAs (Decidable (∀ p, Cell.WF (b p)))

/-- No two related cells are collapsed to the same digit. -/
def Consistent (b : Board) : Prop :=
  ∀ p q, Related p q → ∀ v, b p = Cell.collapsed v → b q ≠ Cell.collapsed v

/-- Every nonzero clue of the grid is still collapsed to its given digit
on the board. -/
def CluePres (g : Grid) (b : Board) : Prop :=
  ∀ p, g p ≠ 0 → b p = Cell.collapsed (g p)

/-- One cell evolves into another by (possibly) shrinking its candidate
set: either unchanged, or an uncollapsed cell whose nonempty candidate set
shrank.  Successful propagation steps act pointwise like this. -/
def Cell.Shrinks (c' c : Cell) : Prop :=
  c' = c ∨ ∃ s s', c = Cell.uncollapsed s ∧ c' = Cell.uncollapsed s' ∧ s' ⊆ s ∧ s'.Nonempty

/-- Per-board invariant of the search: well-formed cells, no two related
collapsed cells with equal digits, and every nonzero clue of the starting
grid still collapsed to its given digit. -/
def BoardInv (g : Grid) (b : Board) : Prop :=
  BoardWF b ∧ Consistent b ∧ CluePres g b

/-- The board invariant holds for the live board and every checkpoint. -/
def StateInv (g : Grid) (s : SudokuSolver) : Prop :=
  BoardInv g s.board ∧ ∀ b ∈ s.previous_states, BoardInv g b

/-- Solution preservation: every solution of the starting grid is still
compatible with the live board or with some checkpoint. -/
def SolPres (g : Grid) (s : SudokuSolver) : Prop :=
  ∀ f, IsSolution g f → Fits s.board f ∨ ∃ b ∈ s.previous_states, Fits b f

/-- Checkpoint-stack shape invariant: the uncollapsed-cell counts of the
live board followed by the checkpoints (most recent first) are strictly
increasing, and every checkpoint has at least one uncollapsed cell. -/
def StackOK (s : SudokuSolver) : Prop :=
  List.Chain' (fun a b => uncount a < uncount b) (s.board :: s.previous_states) ∧
    ∀ b ∈ s.previous_states, 1 ≤ uncount b

/-- Build a grid from a list of rows (row-major, 0 = blank; out-of-range
entries read as 0). -/
def gridOfRows (rows : List (List ℕ)) : Grid :=
  fun p => (rows.getD p.y.val []).getD p.x.val 0

/-- Board in which every nonzero grid entry is collapsed to its digit and
every blank holds all nine candidates. -/
def collapsedBoardOfGrid (g : Grid) : Board :=
  fun p => if g p = 0 then Cell.new_empty else Cell.collapsed (g p)

/-- A complete valid sudoku grid, used as concrete test input. -/
def fullGrid : Grid :=
  gridOfRows
    [[1, 2, 3, 4, 5, 6, 7, 8, 9],
     [4, 5, 6, 7, 8, 9, 1, 2, 3],
     [7, 8, 9, 1, 2, 3, 4, 5, 6],
     [2, 3, 1, 5, 6, 4, 8, 9, 7],
     [5, 6, 4, 8, 9, 7, 2, 3, 1],
     [8, 9, 7, 2, 3, 1, 5, 6, 4],
     [3, 1, 2, 6, 4, 5, 9, 7, 8],
     [6, 4, 5, 9, 7, 8, 3, 1, 2],
     [9, 7, 8, 3, 1, 2, 6, 4, 5]]

/-- A grid with the same digit twice in its first row, used as concrete
test input for contradiction detection. -/
def dupGrid : Grid :=
  gridOfRows [[5, 5, 0, 0, 0, 0, 0, 0, 0]]

/-- Checkpoint-stack length of the state carried by a solver-iteration
result, whether the iteration succeeded or failed. -/
def stackLenOf : Except SudokuSolver SudokuSolver → ℕ
  | .ok t => t.previous_states.length
  | .error t => t.previous_states.length

/-- A grid with a single given digit 1 at the top-left corner. -/
def oneGrid : Grid := gridOfRows [[1]]

/-- The fully collapsed board carrying the digits of `fullGrid`. -/
def fullBoard : Board := fun p => Cell.collapsed (fullGrid p)

/-- A solver state whose board is completely collapsed. -/
def fullSolver : SudokuSolver := ⟨fullBoard, []⟩

/-- A board that is solved except for one cell with exactly two remaining
candidates, used as concrete test input. -/
def twoCandidateBoard : Board :=
  Function.update (collapsedBoardOfGrid fullGrid) ⟨0, 0⟩ (Cell.uncollapsed {1, 2})

/-- Solver state built on `twoCandidateBoard` with an empty checkpoint
stack. -/
def twoCandidateSolver : SudokuSolver := ⟨twoCandidateBoard, []⟩

/-! ### Geometry of rows, columns, regions and relatives -/

theorem Point.ext_iff' {p q : Point} : p = q ↔ p.x = q.x ∧ p.y = q.y := by
  cases p; cases q; simp

theorem mem_get_row {y : Fin 9} {q : Point} : q ∈ get_row y ↔ q.y = y := by
  simp only [get_row, Finset.mem_image, Finset.mem_univ, true_and]
  constructor
  · rintro ⟨x, hx⟩
    rw [← hx]
  · intro h
    exact ⟨q.x, by cases q; simp_all⟩

theorem mem_get_column {x : Fin 9} {q : Point} : q ∈ get_column x ↔ q.x = x := by
  simp only [get_column, Finset.mem_image, Finset.mem_univ, true_and]
  constructor
  · rintro ⟨y, hy⟩
    rw [← hy]
  · intro h
    exact ⟨q.y, by cases q; simp_all⟩

theorem mem_get_region {p q : Point} :
    q ∈ get_region p ↔ q.x.val / 3 = p.x.val / 3 ∧ q.y.val / 3 = p.y.val / 3 := by
  simp only [get_region, get_region_coords, Finset.mem_filter, Finset.mem_univ, true_and]
  omega

theorem mem_get_relatives {p q : Point} :
    q ∈ get_relatives p ↔ q ≠ p ∧
      (q.y = p.y ∨ q.x = p.x ∨
        (q.x.val / 3 = p.x.val / 3 ∧ q.y.val / 3 = p.y.val / 3)) := by
  simp only [get_relatives, Finset.mem_erase, Finset.mem_union, mem_get_row,
    mem_get_column, mem_get_region]
  tauto

theorem related_iff {p q : Point} :
    Related p q ↔ q ≠ p ∧
      (q.y = p.y ∨ q.x = p.x ∨
        (q.x.val / 3 = p.x.val / 3 ∧ q.y.val / 3 = p.y.val / 3)) :=
  mem_get_relatives

theorem Related.symm {p q : Point} (h : Related p q) : Related q p := by
  rw [related_iff] at h ⊢
  refine ⟨fun hc => h.1 hc.symm, ?_⟩
  rcases h.2 with h2 | h2 | h2
  · exact Or.inl h2.symm
  · exact Or.inr (Or.inl h2.symm)
  · exact Or.inr (Or.inr ⟨h2.1.symm, h2.2.symm⟩)

theorem related_irrefl (p : Point) : ¬Related p p := by
  rw [related_iff]
  simp

theorem related_of_row {p q : Point} (hne : q ≠ p) (h : q.y = p.y) : Related p q :=
  related_iff.mpr ⟨hne, Or.inl h⟩

theorem related_of_column {p q : Point} (hne : q ≠ p) (h : q.x = p.x) : Related p q :=
  related_iff.mpr ⟨hne, Or.inr (Or.inl h)⟩

theorem related_of_region {a p q : Point} (hne : q ≠ p)
    (hp : p ∈ get_region a) (hq : q ∈ get_region a) : Related p q := by
  rw [mem_get_region] at hp hq
  exact related_iff.mpr ⟨hne, Or.inr (Or.inr ⟨hp.1 ▸ hq.1, hp.2 ▸ hq.2⟩)⟩

/-! ### The coordinate enumeration -/

theorem mem_allPoints : ∀ p : Point, p ∈ allPoints := by decide

theorem allPoints_nodup : allPoints.Nodup := by decide

theorem allPoints_pairwise_rmIndex :
    List.Pairwise (fun p q => rmIndex p < rmIndex q) allPoints := by decide

theorem mem_relativesList {p q : Point} : q ∈ relativesList p ↔ Related p q := by
  simp only [relativesList, List.mem_filter, decide_eq_true_eq]
  constructor
  · exact fun h => h.2
  · intro h
    exact ⟨mem_allPoints q, h⟩

/-! ### Cell operations -/

theorem Cell.isCollapsed_iff {c : Cell} :
    c.isCollapsed = true ↔ ∃ v, c = Cell.collapsed v := by
  cases c <;> simp [Cell.isCollapsed]

theorem Cell.not_isCollapsed_iff {c : Cell} :
    ¬c.isCollapsed = true ↔ ∃ s, c = Cell.uncollapsed s := by
  cases c <;> simp [Cell.isCollapsed]

theorem Cell.remove_ok_spec {v : ℕ} {c c' : Cell} (h : c.remove v = .ok c') :
    (∃ w, c = Cell.collapsed w ∧ w ≠ v ∧ c' = Cell.collapsed w) ∨
    (∃ s, c = Cell.uncollapsed s ∧ c' = Cell.uncollapsed (s.erase v) ∧
      (s.erase v).Nonempty) := by
  cases c with
  | collapsed w =>
    left
    by_cases hw : w = v
    · simp [Cell.remove, hw] at h
    · simp [Cell.remove, hw] at h
      exact ⟨w, rfl, hw, h.symm⟩
  | uncollapsed s =>
    right
    by_cases hs : s.erase v = ∅
    · simp [Cell.remove, hs] at h
    · simp [Cell.remove, hs] at h
      exact ⟨s, rfl, h.symm, Finset.nonempty_iff_ne_empty.mpr hs⟩

theorem Cell.remove_error_spec {v : ℕ} {c : Cell} {u : Unit} (h : c.remove v = .error u) :
    c = Cell.collapsed v ∨ ∃ s, c = Cell.uncollapsed s ∧ s.erase v = ∅ := by
  cases c with
  | collapsed w =>
    left
    by_cases hw : w = v
    · rw [hw]
    · simp [Cell.remove, hw] at h
  | uncollapsed s =>
    right
    by_cases hs : s.erase v = ∅
    · exact ⟨s, rfl, hs⟩
    · simp [Cell.remove, hs] at h

theorem Cell.chooseMin_mem {s : Finset ℕ} (h : s.Nonempty) : Cell.chooseMin s ∈ s := by
  rw [Cell.chooseMin, dif_pos h]
  exact s.min'_mem h

theorem Cell.chooseMin_le {s : Finset ℕ} {a : ℕ} (ha : a ∈ s) : Cell.chooseMin s ≤ a := by
  rw [Cell.chooseMin, dif_pos ⟨a, ha⟩]
  exact s.min'_le a ha

theorem Cell.Shrinks.refl (c : Cell) : Cell.Shrinks c c := Or.inl (Eq.refl c)

theorem Cell.Shrinks.trans {c3 c2 c1 : Cell}
    (h32 : Cell.Shrinks c3 c2) (h21 : Cell.Shrinks c2 c1) : Cell.Shrinks c3 c1 := by
  rcases h32 with h32 | ⟨a, a', ha, ha', hsub, hne⟩
  · rw [h32]; exact h21
  · rcases h21 with h21 | ⟨t, t', ht, ht', hsub2, hne2⟩
    · rw [← h21]; exact Or.inr ⟨a, a', ha, ha', hsub, hne⟩
    · right
      rw [ht'] at ha
      cases ha
      exact ⟨t, a', ht, ha', hsub.trans hsub2, hne⟩

theorem Cell.Shrinks.isCollapsed_eq {c' c : Cell} (h : Cell.Shrinks c' c) :
    c'.isCollapsed = c.isCollapsed := by
  rcases h with h | ⟨s, s', hs, hs', _, _⟩
  · rw [h]
  · rw [hs, hs']
    rfl

theorem Cell.Shrinks.of_collapsed {c' c : Cell} {w : ℕ} (h : Cell.Shrinks c' c)
    (hc : c = Cell.collapsed w) : c' = Cell.collapsed w := by
  rcases h with h | ⟨s, s', hs, _, _, _⟩
  · rw [h, hc]
  · rw [hc] at hs
    cases hs

theorem Cell.Shrinks.wf {c' c : Cell} (h : Cell.Shrinks c' c) (hwf : Cell.WF c) :
    Cell.WF c' := by
  rcases h with h | ⟨s, s', hs, hs', hsub, hne⟩
  · rw [h]; exact hwf
  · rw [hs] at hwf
    rw [hs']
    exact ⟨fun d hd => hwf.1 d (hsub hd), hne⟩

theorem Cell.Shrinks.wCell_le {c' c : Cell} (h : Cell.Shrinks c' c) :
    SudokuSolver.wCell c' ≤ SudokuSolver.wCell c := by
  rcases h with h | ⟨s, s', hs, hs', hsub, _⟩
  · rw [h]
  · rw [hs, hs']
    exact Nat.sub_le_sub_right (Finset.card_le_card hsub) 1

theorem Cell.remove_ok_shrinks {v : ℕ} {c c' : Cell} (h : c.remove v = .ok c') :
    Cell.Shrinks c' c := by
  rcases Cell.remove_ok_spec h with ⟨w, hc, _, hc'⟩ | ⟨s, hc, hc', hne⟩
  · rw [hc, hc']; exact Or.inl rfl
  · exact Or.inr ⟨s, s.erase v, hc, hc', Finset.erase_subset _ _, hne⟩

/-! ### Compatibility of assignments with boards -/

theorem fits_collapsed {b : Board} {f : Point → ℕ} {p : Point} {v : ℕ}
    (hfit : Fits b f) (hb : b p = Cell.collapsed v) : f p = v := by
  have h := hfit p
  rw [hb] at h
  exact h

theorem fits_uncollapsed {b : Board} {f : Point → ℕ} {p : Point} {s : Finset ℕ}
    (hfit : Fits b f) (hb : b p = Cell.uncollapsed s) : f p ∈ s := by
  have h := hfit p
  rw [hb] at h
  exact h

/-! ### The propagation pass -/

theorem removeAll_ok_spec {v : ℕ} :
    ∀ (l : List Point) (b b' : Board), removeAll v b l = .ok b' →
      ∀ q, b' q = b q ∨
        (q ∈ l ∧ ∃ s, b q = Cell.uncollapsed s ∧
          b' q = Cell.uncollapsed (s.erase v) ∧ (s.erase v).Nonempty) := by
  intro l
  induction l with
  | nil =>
    intro b b' h q
    simp only [removeAll] at h
    cases h
    exact Or.inl rfl
  | cons q0 qs ih =>
    intro b b' h q
    simp only [removeAll] at h
    cases hr : (b q0).remove v with
    | error e => rw [hr] at h; cases h
    | ok c =>
      rw [hr] at h
      have hq := ih (Function.update b q0 c) b' h q
      by_cases hqq : q = q0
      · subst hqq
        rw [Function.update_same] at hq
        rcases Cell.remove_ok_spec hr with ⟨w, hc, hwv, hc'⟩ | ⟨s, hc, hc', hne⟩
        · rcases hq with hq | ⟨hmem, s1, hs1, hb', hne1⟩
          · rw [hq, hc', hc]
            exact Or.inl rfl
          · rw [hc'] at hs1
            cases hs1
        · rcases hq with hq | ⟨hmem, s1, hs1, hb', hne1⟩
          · rw [hq, hc']
            exact Or.inr ⟨List.mem_cons_self q qs, s, hc, rfl, hne⟩
          · rw [hc'] at hs1
            cases hs1
            rw [Finset.erase_idem] at hb' hne1
            exact Or.inr ⟨List.mem_cons_self q qs, s, hc, hb', hne1⟩
      · rw [Function.update_noteq hqq] at hq
        rcases hq with hq | ⟨hmem, rest⟩
        · exact Or.inl hq
        · exact Or.inr ⟨List.mem_cons_of_mem q0 hmem, rest⟩

theorem removeAll_ok_shrinks {v : ℕ} {l : List Point} {b b' : Board}
    (h : removeAll v b l = .ok b') : ∀ q, Cell.Shrinks (b' q) (b q) := by
  intro q
  rcases removeAll_ok_spec l b b' h q with hq | ⟨_, s, hs, hs', hne⟩
  · exact Or.inl hq
  · exact Or.inr ⟨s, s.erase v, hs, hs', Finset.erase_subset _ _, hne⟩

theorem removeAll_ok_fits {v : ℕ} {l : List Point} {b b' : Board} {f : Point → ℕ}
    (h : removeAll v b l = .ok b') (hf : ∀ q ∈ l, f q ≠ v) (hfit : Fits b f) :
    Fits b' f := by
  intro q
  rcases removeAll_ok_spec l b b' h q with hq | ⟨hmem, s, hs, hs', hne⟩
  · rw [hq]; exact hfit q
  · rw [hs']
    exact Finset.mem_erase.mpr ⟨hf q hmem, fits_uncollapsed hfit hs⟩

theorem removeAll_error_noFit {v : ℕ} :
    ∀ (l : List Point) (b : Board) (be : Board) (f : Point → ℕ),
      removeAll v b l = .error be → (∀ q ∈ l, f q ≠ v) → Fits b f → False := by
  intro l
  induction l with
  | nil =>
    intro b be f h _ _
    simp only [removeAll] at h
    exact Except.noConfusion h
  | cons q0 qs ih =>
    intro b be f h hf hfit
    simp only [removeAll] at h
    cases hr : (b q0).remove v with
    | error e =>
      rcases Cell.remove_error_spec hr with hc | ⟨s, hc, hs⟩
      · exact hf q0 (List.mem_cons_self q0 qs) (fits_collapsed hfit hc)
      · have hmem := fits_uncollapsed hfit hc
        have : f q0 ∈ s.erase v :=
          Finset.mem_erase.mpr ⟨hf q0 (List.mem_cons_self q0 qs), hmem⟩
        rw [hs] at this
        exact absurd this (Finset.not_mem_empty _)
    | ok c =>
      rw [hr] at h
      refine ih (Function.update b q0 c) be f h (fun q hq => hf q (List.mem_cons_of_mem q0 hq)) ?_
      intro q
      by_cases hqq : q = q0
      · subst hqq
        rw [Function.update_same]
        rcases Cell.remove_ok_spec hr with ⟨w, hc, hwv, hc'⟩ | ⟨s, hc, hc', hne⟩
        · rw [hc']
          exact fits_collapsed hfit hc
        · rw [hc']
          exact Finset.mem_erase.mpr
            ⟨hf q (List.mem_cons_self q qs), fits_uncollapsed hfit hc⟩
      · rw [Function.update_noteq hqq]
        exact hfit q

/-! ### The lowest-entropy scan -/

theorem entropy_le_nine {c : Cell} (h : Cell.WF c) : c.get_entropy ≤ 9 := by
  cases c with
  | collapsed v => norm_num [Cell.get_entropy]
  | uncollapsed s =>
    have hsub : s ⊆ Finset.Icc 1 9 := fun d hd => Finset.mem_Icc.mpr (h.1 d hd)
    have := Finset.card_le_card hsub
    simpa [Cell.get_entropy, Nat.card_Icc] using this

theorem findLowest_none_iff (b : Board) :
    ∀ (l : List Point) (best : Option Point) (low : ℕ),
      findLowest b l best low = none ↔
        best = none ∧ ∀ p ∈ l, (b p).isCollapsed = true ∨ low ≤ (b p).get_entropy := by
  intro l
  induction l with
  | nil =>
    intro best low
    simp [findLowest]
  | cons p ps ih =>
    intro best low
    simp only [findLowest]
    by_cases hc : (b p).isCollapsed = true
    · rw [if_pos hc, ih]
      constructor
      · rintro ⟨h1, h2⟩
        refine ⟨h1, fun q hq => ?_⟩
        rcases List.mem_cons.mp hq with h | h
        · subst h; exact Or.inl hc
        · exact h2 q h
      · rintro ⟨h1, h2⟩
        exact ⟨h1, fun q hq => h2 q (List.mem_cons_of_mem p hq)⟩
    · rw [if_neg hc]
      by_cases he : (b p).get_entropy < low
      · rw [if_pos he, ih]
        constructor
        · rintro ⟨h1, _⟩
          cases h1
        · rintro ⟨h1, h2⟩
          rcases h2 p (List.mem_cons_self p ps) with h | h
          · exact absurd h hc
          · omega
      · rw [if_neg he, ih]
        constructor
        · rintro ⟨h1, h2⟩
          refine ⟨h1, fun q hq => ?_⟩
          rcases List.mem_cons.mp hq with h | h
          · subst h; right; omega
          · exact h2 q h
        · rintro ⟨h1, h2⟩
          exact ⟨h1, fun q hq => h2 q (List.mem_cons_of_mem p hq)⟩

theorem findLowest_some_spec (b : Board) :
    ∀ (l : List Point) (best : Option Point) (low : ℕ) (p : Point),
      findLowest b l best low = some p →
        (best = some p ∧
          ∀ q ∈ l, ¬(b q).isCollapsed = true → low ≤ (b q).get_entropy) ∨
        (∃ l1 l2, l = l1 ++ p :: l2 ∧ ¬(b p).isCollapsed = true ∧
          (b p).get_entropy < low ∧
          (∀ q ∈ l1, ¬(b q).isCollapsed = true →
            (b p).get_entropy < (b q).get_entropy) ∧
          (∀ q ∈ l2, ¬(b q).isCollapsed = true →
            (b p).get_entropy ≤ (b q).get_entropy)) := by
  intro l
  induction l with
  | nil =>
    intro best low p h
    simp only [findLowest] at h
    exact Or.inl ⟨h, fun q hq => absurd hq (List.not_mem_nil q)⟩
  | cons hd tl ih =>
    intro best low p h
    simp only [findLowest] at h
    by_cases hc : (b hd).isCollapsed = true
    · rw [if_pos hc] at h
      rcases ih best low p h with ⟨h1, h2⟩ | ⟨l1, l2, hdec, hnc, hlt, hbef, haft⟩
      · refine Or.inl ⟨h1, fun q hq hq' => ?_⟩
        rcases List.mem_cons.mp hq with h | h
        · subst h; exact absurd hc hq'
        · exact h2 q h hq'
      · refine Or.inr ⟨hd :: l1, l2, by rw [hdec, List.cons_append], hnc, hlt, ?_, haft⟩
        intro q hq hq'
        rcases List.mem_cons.mp hq with h | h
        · subst h; exact absurd hc hq'
        · exact hbef q h hq'
    · rw [if_neg hc] at h
      by_cases he : (b hd).get_entropy < low
      · rw [if_pos he] at h
        rcases ih _ _ p h with ⟨h1, h2⟩ | ⟨l1, l2, hdec, hnc, hlt, hbef, haft⟩
        · injection h1 with h1
          subst h1
          exact Or.inr ⟨[], tl, rfl, hc, he,
            fun q hq => absurd hq (List.not_mem_nil q), h2⟩
        · refine Or.inr ⟨hd :: l1, l2, by rw [hdec, List.cons_append], hnc,
            Nat.lt_trans hlt he, ?_, haft⟩
          intro q hq hq'
          rcases List.mem_cons.mp hq with h | h
          · subst h; exact hlt
          · exact hbef q h hq'
      · rw [if_neg he] at h
        rcases ih _ _ p h with ⟨h1, h2⟩ | ⟨l1, l2, hdec, hnc, hlt, hbef, haft⟩
        · refine Or.inl ⟨h1, fun q hq hq' => ?_⟩
          rcases List.mem_cons.mp hq with h | h
          · subst h; omega
          · exact h2 q h hq'
        · refine Or.inr ⟨hd :: l1, l2, by rw [hdec, List.cons_append], hnc, hlt, ?_, haft⟩
          intro q hq hq'
          rcases List.mem_cons.mp hq with h | h
          · subst h; omega
          · exact hbef q h hq'

theorem gc_none_iff {b : Board} (hwf : BoardWF b) :
    get_coords_of_uncollapsed_cell_with_lowest_entropy b = none ↔
      ∀ p, (b p).isCollapsed = true := by
  rw [get_coords_of_uncollapsed_cell_with_lowest_entropy, findLowest_none_iff]
  constructor
  · rintro ⟨_, h2⟩ p
    rcases h2 p (mem_allPoints p) with h | h
    · exact h
    · have := entropy_le_nine (hwf p)
      omega
  · intro h
    exact ⟨rfl, fun p _ => Or.inl (h p)⟩

theorem gc_some_spec {b : Board} {p : Point}
    (h : get_coords_of_uncollapsed_cell_with_lowest_entropy b = some p) :
    ¬(b p).isCollapsed = true ∧
    (∀ q, ¬(b q).isCollapsed = true → (b p).get_entropy ≤ (b q).get_entropy) ∧
    (∀ q, ¬(b q).isCollapsed = true → (b q).get_entropy = (b p).get_entropy →
      rmIndex p ≤ rmIndex q) := by
  rw [get_coords_of_uncollapsed_cell_with_lowest_entropy] at h
  rcases findLowest_some_spec b allPoints none 255 p h with ⟨h1, _⟩ | ⟨l1, l2, hdec, hnc, _, hbef, haft⟩
  · cases h1
  · have hsplit : ∀ q : Point, q ∈ l1 ∨ q = p ∨ q ∈ l2 := by
      intro q
      have hq := mem_allPoints q
      rw [hdec, List.mem_append, List.mem_cons] at hq
      tauto
    have hpair := allPoints_pairwise_rmIndex
    rw [hdec, List.pairwise_append] at hpair
    have hbefrm : ∀ q ∈ l1, rmIndex q < rmIndex p :=
      fun q hq => hpair.2.2 q hq p (List.mem_cons_self p l2)
    have haftrm : ∀ q ∈ l2, rmIndex p < rmIndex q := by
      have := hpair.2.1
      rw [List.pairwise_cons] at this
      exact this.1
    refine ⟨hnc, ?_, ?_⟩
    · intro q hq
      rcases hsplit q with hm | hm | hm
      · exact Nat.le_of_lt (hbef q hm hq)
      · subst hm; exact Nat.le_refl _
      · exact haft q hm hq
    · intro q hq heq
      rcases hsplit q with hm | hm | hm
      · have := hbef q hm hq
        omega
      · subst hm; exact Nat.le_refl _
      · exact Nat.le_of_lt (haftrm q hm)

/-! ### Counting lemmas for boards -/

theorem uncount_le_81 (b : Board) : uncount b ≤ 81 := by
  unfold uncount
  have h := Finset.card_filter_le Finset.univ
    (fun p => ¬((b p).isCollapsed = true))
  have huniv : (Finset.univ : Finset Point).card = 81 := by decide
  omega

theorem uncount_pos {b : Board} {p : Point} {S : Finset ℕ}
    (hb : b p = Cell.uncollapsed S) : 1 ≤ uncount b := by
  unfold uncount
  have hp : p ∈ Finset.univ.filter fun q => ¬((b q).isCollapsed = true) := by
    simp [hb, Cell.isCollapsed]
  have := Finset.card_pos.mpr ⟨p, hp⟩
  omega

theorem uncount_eq_of_isCollapsed_eq {b' b : Board}
    (h : ∀ q, (b' q).isCollapsed = (b q).isCollapsed) : uncount b' = uncount b := by
  unfold uncount
  congr 1
  apply Finset.filter_congr
  intro q _
  rw [h q]

theorem uncount_update_collapsed {b : Board} {p : Point} {S : Finset ℕ} {m : ℕ}
    (hb : b p = Cell.uncollapsed S) :
    uncount (Function.update b p (Cell.collapsed m)) + 1 = uncount b := by
  have hset : (Finset.univ.filter fun q =>
      ¬((Function.update b p (Cell.collapsed m) q).isCollapsed = true)) =
      (Finset.univ.filter fun q => ¬((b q).isCollapsed = true)).erase p := by
    ext q
    by_cases hq : q = p
    · subst hq
      simp [Function.update_same, Cell.isCollapsed]
    · simp [Function.update_noteq hq, hq]
  have hp : p ∈ Finset.univ.filter fun q => ¬((b q).isCollapsed = true) := by
    simp [hb, Cell.isCollapsed]
  unfold uncount
  rw [hset, Finset.card_erase_of_mem hp]
  have := Finset.card_pos.mpr ⟨p, hp⟩
  omega

theorem uncount_update_uncollapsed {b : Board} {p : Point} {S s' : Finset ℕ}
    (hb : b p = Cell.uncollapsed S) :
    uncount (Function.update b p (Cell.uncollapsed s')) = uncount b := by
  apply uncount_eq_of_isCollapsed_eq
  intro q
  by_cases hq : q = p
  · subst hq
    rw [Function.update_same, hb]
    rfl
  · rw [Function.update_noteq hq]

theorem boardWeight_update (b : Board) (p : Point) (c : Cell) :
    boardWeight (Function.update b p c) + wCell (b p) = boardWeight b + wCell c := by
  unfold boardWeight
  rw [← Finset.add_sum_erase Finset.univ
    (fun q => wCell (Function.update b p c q)) (Finset.mem_univ p)]
  rw [← Finset.add_sum_erase Finset.univ (fun q => wCell (b q)) (Finset.mem_univ p)]
  rw [Function.update_same]
  have hrest : ∑ q ∈ Finset.univ.erase p, wCell (Function.update b p c q) =
      ∑ q ∈ Finset.univ.erase p, wCell (b q) := by
    apply Finset.sum_congr rfl
    intro q hq
    rw [Function.update_noteq (Finset.mem_erase.mp hq).1]
  rw [hrest]
  ring

theorem boardWeight_le_of_shrinks {b' b : Board}
    (h : ∀ q, Cell.Shrinks (b' q) (b q)) : boardWeight b' ≤ boardWeight b :=
  Finset.sum_le_sum fun q _ => (h q).wCell_le

theorem wCell_le_boardWeight (b : Board) (p : Point) : wCell (b p) ≤ boardWeight b :=
  Finset.single_le_sum (fun q _ => Nat.zero_le (wCell (b q))) (Finset.mem_univ p)

/-! ### Dissecting one solver iteration -/

theorem collapse_cases {s : SudokuSolver} {p : Point} {S : Finset ℕ}
    (hb : s.board p = Cell.uncollapsed S) :
    (∃ b2, propagate_collapse
        (Function.update s.board p (Cell.collapsed (Cell.chooseMin S))) p
        (Cell.chooseMin S) = .ok b2 ∧
      collapse_cell_and_save_state s p = .ok ⟨b2,
        if 1 < S.card then
          Function.update s.board p
            (Cell.uncollapsed (S.erase (Cell.chooseMin S))) :: s.previous_states
        else s.previous_states⟩) ∨
    (∃ be, propagate_collapse
        (Function.update s.board p (Cell.collapsed (Cell.chooseMin S))) p
        (Cell.chooseMin S) = .error be ∧
      collapse_cell_and_save_state s p = .error ⟨be,
        if 1 < S.card then
          Function.update s.board p
            (Cell.uncollapsed (S.erase (Cell.chooseMin S))) :: s.previous_states
        else s.previous_states⟩) := by
  unfold collapse_cell_and_save_state
  rw [hb]
  simp only [Cell.get_entropy, Cell.collapse, Function.update_idem]
  cases hp : propagate_collapse
      (Function.update s.board p (Cell.collapsed (Cell.chooseMin S))) p
      (Cell.chooseMin S) with
  | ok b2 => exact Or.inl ⟨b2, rfl, rfl⟩
  | error be => exact Or.inr ⟨be, rfl, rfl⟩

theorem solve_iteration_true_iff {s s1 : SudokuSolver} :
    solve_iteration s = .ok (true, s1) ↔
      get_coords_of_uncollapsed_cell_with_lowest_entropy s.board = none ∧ s1 = s := by
  unfold solve_iteration
  cases hgc : get_coords_of_uncollapsed_cell_with_lowest_entropy s.board with
  | none =>
    constructor
    · intro h
      replace h : (Except.ok (true, s) : Except SudokuSolver (Bool × SudokuSolver)) = Except.ok (true, s1) := h
      cases h
      exact ⟨rfl, rfl⟩
    · rintro ⟨_, h⟩
      rw [h]
  | some p =>
    constructor
    · intro h
      replace h : Except.map (fun s1 => (false, s1))
          (collapse_cell_and_save_state s p) = Except.ok (true, s1) := h
      cases hc : collapse_cell_and_save_state s p with
      | ok t => rw [hc] at h; simp [Except.map] at h
      | error e => rw [hc] at h; simp [Except.map] at h
    · rintro ⟨h, _⟩
      cases h

theorem solve_iteration_false_spec {s s1 : SudokuSolver}
    (h : solve_iteration s = .ok (false, s1)) :
    ∃ p S, get_coords_of_uncollapsed_cell_with_lowest_entropy s.board = some p ∧
      s.board p = Cell.uncollapsed S ∧
      collapse_cell_and_save_state s p = .ok s1 := by
  unfold solve_iteration at h
  cases hgc : get_coords_of_uncollapsed_cell_with_lowest_entropy s.board with
  | none =>
    rw [hgc] at h
    replace h : (Except.ok (true, s) : Except SudokuSolver (Bool × SudokuSolver)) = Except.ok (false, s1) := h
    simp at h
  | some p =>
    rw [hgc] at h
    replace h : Except.map (fun s1 => (false, s1))
        (collapse_cell_and_save_state s p) = Except.ok (false, s1) := h
    have hnc := (gc_some_spec hgc).1
    rcases Cell.not_isCollapsed_iff.mp hnc with ⟨S, hS⟩
    cases hc : collapse_cell_and_save_state s p with
    | ok t =>
      rw [hc] at h
      simp only [Except.map, Except.ok.injEq, Prod.mk.injEq, true_and] at h
      exact ⟨p, S, rfl, hS, by rw [hc, h]⟩
    | error e =>
      rw [hc] at h
      simp [Except.map] at h

theorem solve_iteration_error_spec {s e : SudokuSolver}
    (h : solve_iteration s = .error e) :
    ∃ p S, get_coords_of_uncollapsed_cell_with_lowest_entropy s.board = some p ∧
      s.board p = Cell.uncollapsed S ∧
      collapse_cell_and_save_state s p = .error e := by
  unfold solve_iteration at h
  cases hgc : get_coords_of_uncollapsed_cell_with_lowest_entropy s.board with
  | none =>
    rw [hgc] at h
    replace h : (Except.ok (true, s) : Except SudokuSolver (Bool × SudokuSolver)) = Except.error e := h
    simp at h
  | some p =>
    rw [hgc] at h
    replace h : Except.map (fun s1 => (false, s1))
        (collapse_cell_and_save_state s p) = Except.error e := h
    have hnc := (gc_some_spec hgc).1
    rcases Cell.not_isCollapsed_iff.mp hnc with ⟨S, hS⟩
    cases hc : collapse_cell_and_save_state s p with
    | ok t =>
      rw [hc] at h
      simp [Except.map] at h
    | error e' =>
      rw [hc] at h
      simp only [Except.map, Except.error.injEq] at h
      exact ⟨p, S, rfl, hS, by rw [hc, h]⟩

theorem step_cases {s s' : SudokuSolver} (h : SolveStep s s') :
    ∃ p S, get_coords_of_uncollapsed_cell_with_lowest_entropy s.board = some p ∧
      s.board p = Cell.uncollapsed S ∧
      ((∃ b2, propagate_collapse
          (Function.update s.board p (Cell.collapsed (Cell.chooseMin S))) p
          (Cell.chooseMin S) = .ok b2 ∧ 1 < S.card ∧
        s' = ⟨b2, Function.update s.board p
          (Cell.uncollapsed (S.erase (Cell.chooseMin S))) :: s.previous_states⟩) ∨
      (∃ b2, propagate_collapse
          (Function.update s.board p (Cell.collapsed (Cell.chooseMin S))) p
          (Cell.chooseMin S) = .ok b2 ∧ ¬1 < S.card ∧
        s' = ⟨b2, s.previous_states⟩) ∨
      (∃ be, propagate_collapse
          (Function.update s.board p (Cell.collapsed (Cell.chooseMin S))) p
          (Cell.chooseMin S) = .error be ∧ 1 < S.card ∧
        s' = ⟨Function.update s.board p
          (Cell.uncollapsed (S.erase (Cell.chooseMin S))), s.previous_states⟩) ∨
      (∃ be, propagate_collapse
          (Function.update s.board p (Cell.collapsed (Cell.chooseMin S))) p
          (Cell.chooseMin S) = .error be ∧ ¬1 < S.card ∧
        s.previous_states = s'.board :: s'.previous_states)) := by
  cases h with
  | cont hit =>
    rcases solve_iteration_false_spec hit with ⟨p, S, hgc, hS, hc⟩
    refine ⟨p, S, hgc, hS, ?_⟩
    rcases collapse_cases hS with ⟨b2, hp, hok⟩ | ⟨be, hp, herr⟩
    · have heq := Except.ok.inj (hok.symm.trans hc)
      by_cases hcard : 1 < S.card
      · rw [if_pos hcard] at heq
        exact Or.inl ⟨b2, hp, hcard, heq.symm⟩
      · rw [if_neg hcard] at heq
        exact Or.inr (Or.inl ⟨b2, hp, hcard, heq.symm⟩)
    · rw [herr] at hc
      cases hc
  | backtrack hit hprev =>
    rcases solve_iteration_error_spec hit with ⟨p, S, hgc, hS, hc⟩
    refine ⟨p, S, hgc, hS, ?_⟩
    rcases collapse_cases hS with ⟨b2, hp, hok⟩ | ⟨be, hp, herr⟩
    · rw [hok] at hc
      cases hc
    · have heq := Except.error.inj (herr.symm.trans hc)
      rw [← heq] at hprev
      simp only at hprev
      by_cases hcard : 1 < S.card
      · rw [if_pos hcard] at hprev
        have h1 := (List.cons.injEq _ _ _ _ ▸ hprev).1
        have h2 := (List.cons.injEq _ _ _ _ ▸ hprev).2
        refine Or.inr (Or.inr (Or.inl ⟨be, hp, hcard, ?_⟩))
        rw [← h1, ← h2]
      · rw [if_neg hcard] at hprev
        exact Or.inr (Or.inr (Or.inr ⟨be, hp, hcard, hprev⟩))

/-! ### Termination of the solve loop -/

theorem stateMeasure_lt_of_step {s s' : SudokuSolver} (h : SolveStep s s') :
    stateMeasure s' < stateMeasure s := by
  rcases step_cases h with ⟨p, S, hgc, hS, hcase⟩
  have hwp : wCell (s.board p) = S.card - 1 := by rw [hS]; rfl
  have hwple := wCell_le_boardWeight s.board p
  rcases hcase with ⟨b2, hp, hcard, hs'⟩ | ⟨b2, hp, hcard, hs'⟩ |
    ⟨be, hp, hcard, hs'⟩ | ⟨be, hp, hcard, hprev⟩
  · -- checkpoint pushed, propagation succeeded
    have hm : Cell.chooseMin S ∈ S :=
      Cell.chooseMin_mem (Finset.card_pos.mp (by omega))
    have hbwcb := boardWeight_update s.board p (Cell.collapsed (Cell.chooseMin S))
    rw [hwp] at hbwcb
    have hbwsh := boardWeight_update s.board p
      (Cell.uncollapsed (S.erase (Cell.chooseMin S)))
    rw [hwp] at hbwsh
    have hcerase : (S.erase (Cell.chooseMin S)).card = S.card - 1 :=
      Finset.card_erase_of_mem hm
    have hwsh : wCell (Cell.uncollapsed (S.erase (Cell.chooseMin S))) = S.card - 1 - 1 := by
      simp [wCell, hcerase]
    rw [hwsh] at hbwsh
    have hwcb : wCell (Cell.collapsed (Cell.chooseMin S)) = 0 := rfl
    rw [hwcb] at hbwcb
    have hp' : removeAll (Cell.chooseMin S)
        (Function.update s.board p (Cell.collapsed (Cell.chooseMin S)))
        (relativesList p) = .ok b2 := hp
    have hb2 : boardWeight b2 ≤
        boardWeight (Function.update s.board p (Cell.collapsed (Cell.chooseMin S))) :=
      boardWeight_le_of_shrinks (removeAll_ok_shrinks hp')
    have hA1 : 1 ≤ boardWeight s.board := by omega
    have hsh : boardWeight (Function.update s.board p
        (Cell.uncollapsed (S.erase (Cell.chooseMin S)))) = boardWeight s.board - 1 := by
      omega
    have h3 : (3 : ℕ) ^ boardWeight s.board =
        3 * 3 ^ (boardWeight s.board - 1) := by
      conv_lhs => rw [show boardWeight s.board = (boardWeight s.board - 1) + 1 by omega]
      rw [pow_succ]
      ring
    have hle2 : (3 : ℕ) ^ boardWeight b2 ≤ 3 ^ (boardWeight s.board - 1) :=
      Nat.pow_le_pow_right (by norm_num) (by omega)
    have hone : 1 ≤ (3 : ℕ) ^ (boardWeight s.board - 1) :=
      Nat.one_le_pow _ _ (by norm_num)
    have hu2 : uncount b2 ≤ 81 := uncount_le_81 _
    rw [hs']
    simp only [stateMeasure, stackWeight, List.map_cons, List.sum_cons]
    rw [hsh, h3]
    generalize (3 : ℕ) ^ (boardWeight s.board - 1) = t at hle2 hone
    generalize (3 : ℕ) ^ boardWeight b2 = tb at hle2
    omega
  · -- forced collapse, propagation succeeded
    have hw0 : wCell (s.board p) = 0 := by omega
    have hbwcb := boardWeight_update s.board p (Cell.collapsed (Cell.chooseMin S))
    rw [hw0] at hbwcb
    have hwcb : wCell (Cell.collapsed (Cell.chooseMin S)) = 0 := rfl
    rw [hwcb] at hbwcb
    have hp' : removeAll (Cell.chooseMin S)
        (Function.update s.board p (Cell.collapsed (Cell.chooseMin S)))
        (relativesList p) = .ok b2 := hp
    have hb2 : boardWeight b2 ≤
        boardWeight (Function.update s.board p (Cell.collapsed (Cell.chooseMin S))) :=
      boardWeight_le_of_shrinks (removeAll_ok_shrinks hp')
    have hle2 : (3 : ℕ) ^ boardWeight b2 ≤ 3 ^ boardWeight s.board :=
      Nat.pow_le_pow_right (by norm_num) (by omega)
    have huc : uncount (Function.update s.board p
        (Cell.collapsed (Cell.chooseMin S))) + 1 = uncount s.board :=
      uncount_update_collapsed hS
    have hu2 : uncount b2 = uncount (Function.update s.board p
        (Cell.collapsed (Cell.chooseMin S))) :=
      uncount_eq_of_isCollapsed_eq fun q => ((removeAll_ok_shrinks hp') q).isCollapsed_eq
    rw [hs']
    simp only [stateMeasure, stackWeight]
    generalize (3 : ℕ) ^ boardWeight b2 = tb at hle2
    generalize (3 : ℕ) ^ boardWeight s.board = t at hle2
    omega
  · -- checkpoint pushed, propagation failed: restore the fresh checkpoint
    have hm : Cell.chooseMin S ∈ S :=
      Cell.chooseMin_mem (Finset.card_pos.mp (by omega))
    have hbwsh := boardWeight_update s.board p
      (Cell.uncollapsed (S.erase (Cell.chooseMin S)))
    rw [hwp] at hbwsh
    have hcerase : (S.erase (Cell.chooseMin S)).card = S.card - 1 :=
      Finset.card_erase_of_mem hm
    have hwsh : wCell (Cell.uncollapsed (S.erase (Cell.chooseMin S))) = S.card - 1 - 1 := by
      simp [wCell, hcerase]
    rw [hwsh] at hbwsh
    have hA1 : 1 ≤ boardWeight s.board := by omega
    have hsh : boardWeight (Function.update s.board p
        (Cell.uncollapsed (S.erase (Cell.chooseMin S)))) = boardWeight s.board - 1 := by
      omega
    have h3 : (3 : ℕ) ^ boardWeight s.board =
        3 * 3 ^ (boardWeight s.board - 1) := by
      conv_lhs => rw [show boardWeight s.board = (boardWeight s.board - 1) + 1 by omega]
      rw [pow_succ]
      ring
    have hone : 1 ≤ (3 : ℕ) ^ (boardWeight s.board - 1) :=
      Nat.one_le_pow _ _ (by norm_num)
    have husame : uncount (Function.update s.board p
        (Cell.uncollapsed (S.erase (Cell.chooseMin S)))) = uncount s.board :=
      uncount_update_uncollapsed hS
    rw [hs']
    simp only [stateMeasure, stackWeight]
    rw [hsh, h3, husame]
    generalize (3 : ℕ) ^ (boardWeight s.board - 1) = t at hone
    omega
  · -- forced collapse, propagation failed: restore an older checkpoint
    have hone : 1 ≤ (3 : ℕ) ^ boardWeight s.board :=
      Nat.one_le_pow _ _ (by norm_num)
    have hu' : uncount s'.board ≤ 81 := uncount_le_81 _
    simp only [stateMeasure]
    rw [hprev]
    simp only [stackWeight, List.map_cons, List.sum_cons]
    generalize (3 : ℕ) ^ boardWeight s.board = t at hone
    omega

theorem solveFuel_total : ∀ (n : ℕ) (s : SudokuSolver),
    stateMeasure s < n → (solveFuel n s).isSome = true := by
  intro n
  induction n with
  | zero =>
    intro s hs
    omega
  | succ n ih =>
    intro s hs
    rw [solveFuel]
    cases hit : solve_iteration s with
    | ok r =>
      rcases r with ⟨fl, s1⟩
      cases fl with
      | true => simp
      | false =>
        have hstep : SolveStep s s1 := SolveStep.cont hit
        have := stateMeasure_lt_of_step hstep
        exact ih s1 (by omega)
    | error e =>
      change (match e.previous_states with
        | b :: rest => solveFuel n ⟨b, rest⟩
        | [] => some (.error e)).isSome = true
      cases hprev : e.previous_states with
      | nil => simp
      | cons b rest =>
        have hstep : SolveStep s ⟨b, rest⟩ := SolveStep.backtrack hit hprev
        have := stateMeasure_lt_of_step hstep
        exact ih ⟨b, rest⟩ (by omega)

theorem solveFuel_mono : ∀ (n : ℕ) (s : SudokuSolver) (r : Except SudokuSolver SudokuSolver),
    solveFuel n s = some r → ∀ m, n ≤ m → solveFuel m s = some r := by
  intro n
  induction n with
  | zero =>
    intro s r h
    simp [solveFuel] at h
  | succ n ih =>
    intro s r h m hm
    rcases Nat.exists_eq_add_of_le hm with ⟨k, hk⟩
    subst hk
    rw [Nat.succ_add, solveFuel]
    rw [solveFuel] at h
    cases hit : solve_iteration s with
    | ok rr =>
      rw [hit] at h
      rcases rr with ⟨fl, s1⟩
      cases fl with
      | true => exact h
      | false => exact ih s1 r h (n + k) (Nat.le_add_right n k)
    | error e =>
      rw [hit] at h
      replace h : (match e.previous_states with
        | b :: rest => solveFuel n ⟨b, rest⟩
        | [] => some (Except.error e)) = some r := h
      change (match e.previous_states with
        | b :: rest => solveFuel (n + k) ⟨b, rest⟩
        | [] => some (Except.error e)) = some r
      revert h
      cases e.previous_states with
      | nil => intro h; exact h
      | cons b rest => intro h; exact ih ⟨b, rest⟩ r h (n + k) (Nat.le_add_right n k)

theorem solve_eq_solveFuel (s : SudokuSolver) :
    solveFuel (fuelBound s) s = some (solve s) := by
  have hs := solveFuel_total (fuelBound s) s (by rw [fuelBound]; omega)
  cases h : solveFuel (fuelBound s) s with
  | none => rw [h] at hs; simp at hs
  | some r => rw [solve, h]; rfl

/-! ### Invariant preservation -/

theorem Cell.Shrinks.collapsed_source {c' c : Cell} {w : ℕ}
    (h : Cell.Shrinks c' c) (hc' : c' = Cell.collapsed w) : c = Cell.collapsed w := by
  rcases h with h | ⟨s, s', hs, hs', _, _⟩
  · rw [← h, hc']
  · rw [hc'] at hs'
    cases hs'

theorem removeAll_ok_no_collapsed_v {v : ℕ} :
    ∀ (l : List Point) (b b' : Board), removeAll v b l = .ok b' →
      ∀ q ∈ l, ∀ w, b q = Cell.collapsed w → w ≠ v := by
  intro l
  induction l with
  | nil =>
    intro b b' _ q hq
    exact absurd hq (List.not_mem_nil q)
  | cons q0 qs ih =>
    intro b b' h q hq w hw
    simp only [removeAll] at h
    cases hr : (b q0).remove v with
    | error e => rw [hr] at h; cases h
    | ok c =>
      rw [hr] at h
      rcases List.mem_cons.mp hq with hq' | hq'
      · subst hq'
        rcases Cell.remove_ok_spec hr with ⟨w', hc, hwv, _⟩ | ⟨s, hc, _, _⟩
        · rw [hw] at hc
          cases hc
          exact hwv
        · rw [hw] at hc
          cases hc
      · refine ih (Function.update b q0 c) b' h q hq' w ?_
        by_cases hqq : q = q0
        · subst hqq
          rw [Function.update_same]
          rcases Cell.remove_ok_spec hr with ⟨w', hc, _, hc'⟩ | ⟨s, hc, _, _⟩
          · rw [hw] at hc
            cases hc
            exact hc'
          · rw [hw] at hc
            cases hc
        · rw [Function.update_noteq hqq]
          exact hw

theorem removeAll_ok_collapsed_preserved {v : ℕ} {l : List Point} {b b' : Board}
    (h : removeAll v b l = .ok b') {q : Point} {w : ℕ}
    (hq : b q = Cell.collapsed w) : b' q = Cell.collapsed w :=
  ((removeAll_ok_shrinks h) q).of_collapsed hq

theorem boardInv_after_collapse {g : Grid} {b b2 : Board} {p : Point} {m : ℕ}
    (hinv : BoardInv g b) (hm19 : 1 ≤ m ∧ m ≤ 9) (hgp : g p ≠ 0 → m = g p)
    (hp : removeAll m (Function.update b p (Cell.collapsed m)) (relativesList p) = .ok b2) :
    BoardInv g b2 := by
  obtain ⟨hwf, hcons, hclue⟩ := hinv
  have hcbwf : BoardWF (Function.update b p (Cell.collapsed m)) := by
    intro q
    by_cases hq : q = p
    · subst hq
      rw [Function.update_same]
      exact hm19
    · rw [Function.update_noteq hq]
      exact hwf q
  have hshr := removeAll_ok_shrinks hp
  have hsrc : ∀ q w, b2 q = Cell.collapsed w →
      Function.update b p (Cell.collapsed m) q = Cell.collapsed w :=
    fun q w hq => (hshr q).collapsed_source hq
  refine ⟨fun q => (hshr q).wf (hcbwf q), ?_, ?_⟩
  · -- consistency
    intro q r hrel v hq hr
    have hcq := hsrc q v hq
    have hcr := hsrc r v hr
    by_cases hqp : q = p
    · have hvm : v = m := by
        rw [hqp, Function.update_same] at hcq
        exact (Cell.collapsed.injEq _ _ ▸ hcq).symm
      have hrelp : Related p r := hqp ▸ hrel
      have hne := removeAll_ok_no_collapsed_v (relativesList p)
        (Function.update b p (Cell.collapsed m)) b2 hp r
        (mem_relativesList.mpr hrelp) v hcr
      exact hne hvm
    · by_cases hrp : r = p
      · have hvm : v = m := by
          rw [hrp, Function.update_same] at hcr
          exact (Cell.collapsed.injEq _ _ ▸ hcr).symm
        have hrelp : Related p q := Related.symm (hrp ▸ hrel)
        have hne := removeAll_ok_no_collapsed_v (relativesList p)
          (Function.update b p (Cell.collapsed m)) b2 hp q
          (mem_relativesList.mpr hrelp) v hcq
        exact hne hvm
      · rw [Function.update_noteq hqp] at hcq
        rw [Function.update_noteq hrp] at hcr
        exact hcons q r hrel v hcq hcr
  · -- clue preservation
    intro q hq
    by_cases hqp : q = p
    · have hbp : Function.update b p (Cell.collapsed m) q = Cell.collapsed m := by
        rw [hqp, Function.update_same]
      have hgq : g p ≠ 0 := by rw [← hqp]; exact hq
      rw [(hshr q).of_collapsed hbp, hgp hgq, hqp]
    · have hbq : Function.update b p (Cell.collapsed m) q =
          Cell.collapsed (g q) := by
        rw [Function.update_noteq hqp]
        exact hclue q hq
      exact (hshr q).of_collapsed hbq

theorem boardInv_shadow {g : Grid} {b : Board} {p : Point} {S : Finset ℕ} {m : ℕ}
    (hinv : BoardInv g b) (hS : b p = Cell.uncollapsed S) (hcard : 1 < S.card) :
    BoardInv g (Function.update b p (Cell.uncollapsed (S.erase m))) := by
  obtain ⟨hwf, hcons, hclue⟩ := hinv
  have hSwf := hwf p
  rw [hS] at hSwf
  refine ⟨?_, ?_, ?_⟩
  · intro q
    by_cases hq : q = p
    · subst hq
      rw [Function.update_same]
      refine ⟨fun d hd => hSwf.1 d (Finset.erase_subset _ _ hd), ?_⟩
      rw [← Finset.card_pos]
      have hle : S.card - 1 ≤ (S.erase m).card := Finset.pred_card_le_card_erase
      omega
    · rw [Function.update_noteq hq]
      exact hwf q
  · intro q r hrel v hq hr
    by_cases hqp : q = p
    · subst hqp
      rw [Function.update_same] at hq
      cases hq
    · by_cases hrp : r = p
      · subst hrp
        rw [Function.update_same] at hr
        cases hr
      · rw [Function.update_noteq hqp] at hq
        rw [Function.update_noteq hrp] at hr
        exact hcons q r hrel v hq hr
  · intro q hq
    by_cases hqp : q = p
    · subst hqp
      rw [hclue q hq] at hS
      cases hS
    · rw [Function.update_noteq hqp]
      exact hclue q hq

theorem fits_update_collapsed {b : Board} {f : Point → ℕ} {p : Point} {m : ℕ}
    (hfit : Fits b f) (hfp : f p = m) :
    Fits (Function.update b p (Cell.collapsed m)) f := by
  intro q
  by_cases hq : q = p
  · rw [hq, Function.update_same]
    exact hfp
  · rw [Function.update_noteq hq]
    exact hfit q

theorem fits_update_uncollapsed {b : Board} {f : Point → ℕ} {p : Point} {s' : Finset ℕ}
    (hfit : Fits b f) (hfp : f p ∈ s') :
    Fits (Function.update b p (Cell.uncollapsed s')) f := by
  intro q
  by_cases hq : q = p
  · rw [hq, Function.update_same]
    exact hq ▸ hfp
  · rw [Function.update_noteq hq]
    exact hfit q

theorem chain_replace_head_le {a a' : Board} {l : List Board}
    (h : List.Chain' (fun x y => uncount x < uncount y) (a :: l))
    (hle : uncount a' ≤ uncount a) :
    List.Chain' (fun x y => uncount x < uncount y) (a' :: l) := by
  cases l with
  | nil => simp
  | cons t rest =>
    rw [List.chain'_cons] at h ⊢
    exact ⟨lt_of_le_of_lt hle h.1, h.2⟩

theorem solveStep_preserves {g : Grid} {s s' : SudokuSolver} (h : SolveStep s s')
    (hinv : StateInv g s) (hsp : SolPres g s) (hstk : StackOK s) :
    StateInv g s' ∧ SolPres g s' ∧ StackOK s' := by
  rcases step_cases h with ⟨p, S, hgc, hS, hcase⟩
  obtain ⟨hlive, hstack⟩ := hinv
  have hSwf := hlive.1 p
  rw [hS] at hSwf
  have hSne : S.Nonempty := hSwf.2
  have hm : Cell.chooseMin S ∈ S := Cell.chooseMin_mem hSne
  have hm19 : 1 ≤ Cell.chooseMin S ∧ Cell.chooseMin S ≤ 9 := hSwf.1 _ hm
  have hclue0 : g p = 0 := by
    by_contra h0
    have hc := hlive.2.2 p h0
    rw [hS] at hc
    cases hc
  have hgp : g p ≠ 0 → Cell.chooseMin S = g p := fun h0 => (h0 hclue0).elim
  have hupos : 1 ≤ uncount s.board := uncount_pos hS
  rcases hcase with ⟨b2, hp, hcard, hs'⟩ | ⟨b2, hp, hcard, hs'⟩ |
    ⟨be, hp, hcard, hs'⟩ | ⟨be, hp, hcard, hprev⟩
  · -- collapse with checkpoint, propagation ok
    have hp' : removeAll (Cell.chooseMin S)
        (Function.update s.board p (Cell.collapsed (Cell.chooseMin S)))
        (relativesList p) = .ok b2 := hp
    have hb2inv : BoardInv g b2 := boardInv_after_collapse hlive hm19 hgp hp'
    have hshinv : BoardInv g (Function.update s.board p
        (Cell.uncollapsed (S.erase (Cell.chooseMin S)))) :=
      boardInv_shadow hlive hS hcard
    have hu2cb : uncount (Function.update s.board p
        (Cell.collapsed (Cell.chooseMin S))) + 1 = uncount s.board :=
      uncount_update_collapsed hS
    have hub2 : uncount b2 = uncount (Function.update s.board p
        (Cell.collapsed (Cell.chooseMin S))) :=
      uncount_eq_of_isCollapsed_eq fun q => ((removeAll_ok_shrinks hp') q).isCollapsed_eq
    have hush : uncount (Function.update s.board p
        (Cell.uncollapsed (S.erase (Cell.chooseMin S)))) = uncount s.board :=
      uncount_update_uncollapsed hS
    subst hs'
    dsimp only [StateInv, SolPres, StackOK]
    refine ⟨⟨hb2inv, ?_⟩, ?_, ?_, ?_⟩
    · intro b hb
      rcases List.mem_cons.mp hb with hb | hb
      · rw [hb]; exact hshinv
      · exact hstack b hb
    · -- solution preservation
      intro f hf
      have hval := hf.1
      rcases hsp f hf with hfit | ⟨b, hb, hfit⟩
      · have hfS : f p ∈ S := fits_uncollapsed hfit hS
        by_cases hfm : f p = Cell.chooseMin S
        · left
          have hfver : ∀ q ∈ relativesList p, f q ≠ Cell.chooseMin S := by
            intro q hq he
            exact hval.2 p q (mem_relativesList.mp hq) (by rw [hfm, he])
          exact removeAll_ok_fits hp' hfver (fits_update_collapsed hfit hfm)
        · right
          refine ⟨_, List.mem_cons_self _ _, ?_⟩
          exact fits_update_uncollapsed hfit (Finset.mem_erase.mpr ⟨hfm, hfS⟩)
      · exact Or.inr ⟨b, List.mem_cons_of_mem _ hb, hfit⟩
    · -- stack chain
      rw [List.chain'_cons]
      constructor
      · omega
      · exact chain_replace_head_le hstk.1 (by omega)
    · intro b hb
      rcases List.mem_cons.mp hb with hb | hb
      · rw [hb, hush]; omega
      · exact hstk.2 b hb
  · -- forced collapse, propagation ok
    have hp' : removeAll (Cell.chooseMin S)
        (Function.update s.board p (Cell.collapsed (Cell.chooseMin S)))
        (relativesList p) = .ok b2 := hp
    have hb2inv : BoardInv g b2 := boardInv_after_collapse hlive hm19 hgp hp'
    have hu2cb : uncount (Function.update s.board p
        (Cell.collapsed (Cell.chooseMin S))) + 1 = uncount s.board :=
      uncount_update_collapsed hS
    have hub2 : uncount b2 = uncount (Function.update s.board p
        (Cell.collapsed (Cell.chooseMin S))) :=
      uncount_eq_of_isCollapsed_eq fun q => ((removeAll_ok_shrinks hp') q).isCollapsed_eq
    subst hs'
    dsimp only [StateInv, SolPres, StackOK]
    refine ⟨⟨hb2inv, hstack⟩, ?_, ?_, hstk.2⟩
    · intro f hf
      have hval := hf.1
      rcases hsp f hf with hfit | ⟨b, hb, hfit⟩
      · have hfS : f p ∈ S := fits_uncollapsed hfit hS
        have hfm : f p = Cell.chooseMin S :=
          Finset.card_le_one.mp (by omega) _ hfS _ hm
        left
        have hfver : ∀ q ∈ relativesList p, f q ≠ Cell.chooseMin S := by
          intro q hq he
          exact hval.2 p q (mem_relativesList.mp hq) (by rw [hfm, he])
        exact removeAll_ok_fits hp' hfver (fits_update_collapsed hfit hfm)
      · exact Or.inr ⟨b, hb, hfit⟩
    · exact chain_replace_head_le hstk.1 (by omega)
  · -- collapse with checkpoint, propagation contradiction: restore checkpoint
    have hp' : removeAll (Cell.chooseMin S)
        (Function.update s.board p (Cell.collapsed (Cell.chooseMin S)))
        (relativesList p) = .error be := hp
    have hshinv : BoardInv g (Function.update s.board p
        (Cell.uncollapsed (S.erase (Cell.chooseMin S)))) :=
      boardInv_shadow hlive hS hcard
    have hush : uncount (Function.update s.board p
        (Cell.uncollapsed (S.erase (Cell.chooseMin S)))) = uncount s.board :=
      uncount_update_uncollapsed hS
    subst hs'
    dsimp only [StateInv, SolPres, StackOK]
    refine ⟨⟨hshinv, hstack⟩, ?_, ?_, hstk.2⟩
    · intro f hf
      have hval := hf.1
      rcases hsp f hf with hfit | ⟨b, hb, hfit⟩
      · have hfS : f p ∈ S := fits_uncollapsed hfit hS
        by_cases hfm : f p = Cell.chooseMin S
        · exfalso
          have hfver : ∀ q ∈ relativesList p, f q ≠ Cell.chooseMin S := by
            intro q hq he
            exact hval.2 p q (mem_relativesList.mp hq) (by rw [hfm, he])
          exact removeAll_error_noFit (relativesList p) _ be f hp' hfver
            (fits_update_collapsed hfit hfm)
        · left
          exact fits_update_uncollapsed hfit (Finset.mem_erase.mpr ⟨hfm, hfS⟩)
      · exact Or.inr ⟨b, hb, hfit⟩
    · exact chain_replace_head_le hstk.1 (by omega)
  · -- forced collapse, propagation contradiction: restore an older checkpoint
    have hp' : removeAll (Cell.chooseMin S)
        (Function.update s.board p (Cell.collapsed (Cell.chooseMin S)))
        (relativesList p) = .error be := hp
    have hmem : s'.board ∈ s.previous_states := by
      rw [hprev]
      exact List.mem_cons_self _ _
    refine ⟨⟨hstack s'.board hmem, ?_⟩, ?_, ?_, ?_⟩
    · intro b hb
      exact hstack b (by rw [hprev]; exact List.mem_cons_of_mem _ hb)
    · intro f hf
      have hval := hf.1
      rcases hsp f hf with hfit | ⟨b, hb, hfit⟩
      · exfalso
        have hfS : f p ∈ S := fits_uncollapsed hfit hS
        have hfm : f p = Cell.chooseMin S :=
          Finset.card_le_one.mp (by omega) _ hfS _ hm
        have hfver : ∀ q ∈ relativesList p, f q ≠ Cell.chooseMin S := by
          intro q hq he
          exact hval.2 p q (mem_relativesList.mp hq) (by rw [hfm, he])
        exact removeAll_error_noFit (relativesList p) _ be f hp' hfver
          (fits_update_collapsed hfit hfm)
      · rw [hprev] at hb
        rcases List.mem_cons.mp hb with hb | hb
        · left
          rw [← hb]
          exact hfit
        · exact Or.inr ⟨b, hb, hfit⟩
    · have := hstk.1
      rw [hprev] at this
      exact this.tail
    · intro b hb
      exact hstk.2 b (by rw [hprev]; exact List.mem_cons_of_mem _ hb)

theorem reaches_good {g : Grid} {s t : SudokuSolver} (hr : Reaches s t)
    (h : StateInv g s ∧ SolPres g s ∧ StackOK s) :
    StateInv g t ∧ SolPres g t ∧ StackOK t := by
  induction hr with
  | refl => exact h
  | tail hst hstep ih => exact solveStep_preserves hstep ih.1 ih.2.1 ih.2.2

/-! ### Construction (`SudokuSolver::new`) -/

theorem wf_after_collapse {b b2 : Board} {p : Point} {m : ℕ}
    (hwf : BoardWF b) (hm19 : 1 ≤ m ∧ m ≤ 9)
    (hp : removeAll m (Function.update b p (Cell.collapsed m)) (relativesList p) = .ok b2) :
    BoardWF b2 := by
  have hcbwf : BoardWF (Function.update b p (Cell.collapsed m)) := by
    intro q
    by_cases hq : q = p
    · subst hq
      rw [Function.update_same]
      exact hm19
    · rw [Function.update_noteq hq]
      exact hwf q
  exact fun q => ((removeAll_ok_shrinks hp) q).wf (hcbwf q)

theorem consistent_after_collapse {b b2 : Board} {p : Point} {m : ℕ}
    (hcons : Consistent b)
    (hp : removeAll m (Function.update b p (Cell.collapsed m)) (relativesList p) = .ok b2) :
    Consistent b2 := by
  have hshr := removeAll_ok_shrinks hp
  have hsrc : ∀ q w, b2 q = Cell.collapsed w →
      Function.update b p (Cell.collapsed m) q = Cell.collapsed w :=
    fun q w hq => (hshr q).collapsed_source hq
  intro q r hrel v hq hr
  have hcq := hsrc q v hq
  have hcr := hsrc r v hr
  by_cases hqp : q = p
  · have hvm : v = m := by
      rw [hqp, Function.update_same] at hcq
      exact (Cell.collapsed.injEq _ _ ▸ hcq).symm
    have hrelp : Related p r := hqp ▸ hrel
    have hne := removeAll_ok_no_collapsed_v (relativesList p)
      (Function.update b p (Cell.collapsed m)) b2 hp r
      (mem_relativesList.mpr hrelp) v hcr
    exact hne hvm
  · by_cases hrp : r = p
    · have hvm : v = m := by
        rw [hrp, Function.update_same] at hcr
        exact (Cell.collapsed.injEq _ _ ▸ hcr).symm
      have hrelp : Related p q := Related.symm (hrp ▸ hrel)
      have hne := removeAll_ok_no_collapsed_v (relativesList p)
        (Function.update b p (Cell.collapsed m)) b2 hp q
        (mem_relativesList.mpr hrelp) v hcq
      exact hne hvm
    · rw [Function.update_noteq hqp] at hcq
      rw [Function.update_noteq hrp] at hcr
      exact hcons q r hrel v hcq hcr

theorem init_step_ok_zero {g : Grid} {b b' : Board} {p : Point}
    (h0 : g p = 0) (h : init_step g b p = .ok b') : b' = b := by
  unfold init_step at h
  rw [if_pos h0] at h
  exact (Except.ok.inj h).symm

theorem init_step_ok_pos {g : Grid} {b b' : Board} {p : Point}
    (h0 : g p ≠ 0) (h : init_step g b p = .ok b') :
    removeAll (g p) (Function.update b p (Cell.collapsed (g p))) (relativesList p) =
      .ok b' := by
  unfold init_step at h
  rw [if_neg h0] at h
  cases hq : propagate_collapse (Function.update b p (Cell.new_filled (g p))) p (g p) with
  | ok c =>
    rw [hq] at h
    have hq' : removeAll (g p) (Function.update b p (Cell.collapsed (g p)))
        (relativesList p) = .ok c := hq
    rw [hq', Except.ok.inj h]
  | error e =>
    rw [hq] at h
    cases h

theorem initFold_collapsed_stable {g : Grid} :
    ∀ (l : List Point) (b b' : Board), initFold g b l = .ok b' →
      ∀ q, q ∉ l → ∀ w, b q = Cell.collapsed w → b' q = Cell.collapsed w := by
  intro l
  induction l with
  | nil =>
    intro b b' h q _ w hw
    simp only [initFold] at h
    rw [← Except.ok.inj h]
    exact hw
  | cons p ps ih =>
    intro b b' h q hq w hw
    simp only [initFold] at h
    cases hstep : init_step g b p with
    | error e => rw [hstep] at h; cases h
    | ok b1 =>
      rw [hstep] at h
      have hqp : q ≠ p := fun hqp => hq (hqp ▸ List.mem_cons_self p ps)
      have hqps : q ∉ ps := fun hqs => hq (List.mem_cons_of_mem p hqs)
      refine ih b1 b' h q hqps w ?_
      by_cases h0 : g p = 0
      · rw [init_step_ok_zero h0 hstep]
        exact hw
      · have hra := init_step_ok_pos h0 hstep
        refine removeAll_ok_collapsed_preserved hra ?_
        rw [Function.update_noteq hqp]
        exact hw

theorem initFold_clue {g : Grid} :
    ∀ (l : List Point) (b b' : Board), initFold g b l = .ok b' → l.Nodup →
      ∀ q ∈ l, g q ≠ 0 → b' q = Cell.collapsed (g q) := by
  intro l
  induction l with
  | nil =>
    intro b b' _ _ q hq
    exact absurd hq (List.not_mem_nil q)
  | cons p ps ih =>
    intro b b' h hnd q hq h0
    simp only [initFold] at h
    cases hstep : init_step g b p with
    | error e => rw [hstep] at h; cases h
    | ok b1 =>
      rw [hstep] at h
      rcases List.mem_cons.mp hq with hq' | hq'
      · subst hq'
        have hra := init_step_ok_pos h0 hstep
        have hb1 : b1 q = Cell.collapsed (g q) :=
          removeAll_ok_collapsed_preserved hra (Function.update_same _ _ _)
        exact initFold_collapsed_stable ps b1 b' h q
          ((List.nodup_cons.mp hnd).1) _ hb1
      · exact ih b1 b' h (List.nodup_cons.mp hnd).2 q hq' h0

theorem initFold_wf {g : Grid} (hg : ∀ p, g p ≤ 9) :
    ∀ (l : List Point) (b b' : Board), initFold g b l = .ok b' →
      BoardWF b → BoardWF b' := by
  intro l
  induction l with
  | nil =>
    intro b b' h hwf
    simp only [initFold] at h
    rw [← Except.ok.inj h]
    exact hwf
  | cons p ps ih =>
    intro b b' h hwf
    simp only [initFold] at h
    cases hstep : init_step g b p with
    | error e => rw [hstep] at h; cases h
    | ok b1 =>
      rw [hstep] at h
      refine ih b1 b' h ?_
      by_cases h0 : g p = 0
      · rw [init_step_ok_zero h0 hstep]
        exact hwf
      · exact wf_after_collapse hwf ⟨Nat.one_le_iff_ne_zero.mpr h0, hg p⟩
          (init_step_ok_pos h0 hstep)

theorem initFold_consistent {g : Grid} (hg : ∀ p, g p ≤ 9) :
    ∀ (l : List Point) (b b' : Board), initFold g b l = .ok b' →
      Consistent b → BoardWF b → Consistent b' := by
  intro l
  induction l with
  | nil =>
    intro b b' h hcons _
    simp only [initFold] at h
    rw [← Except.ok.inj h]
    exact hcons
  | cons p ps ih =>
    intro b b' h hcons hwf
    simp only [initFold] at h
    cases hstep : init_step g b p with
    | error e => rw [hstep] at h; cases h
    | ok b1 =>
      rw [hstep] at h
      by_cases h0 : g p = 0
      · refine ih b1 b' h ?_ ?_
        · rw [init_step_ok_zero h0 hstep]
          exact hcons
        · rw [init_step_ok_zero h0 hstep]
          exact hwf
      · refine ih b1 b' h ?_ ?_
        · exact consistent_after_collapse hcons (init_step_ok_pos h0 hstep)
        · exact wf_after_collapse hwf ⟨Nat.one_le_iff_ne_zero.mpr h0, hg p⟩
            (init_step_ok_pos h0 hstep)

theorem initFold_fits {g : Grid} :
    ∀ (l : List Point) (b b' : Board), initFold g b l = .ok b' →
      ∀ f, IsSolution g f → Fits b f → Fits b' f := by
  intro l
  induction l with
  | nil =>
    intro b b' h f _ hfit
    simp only [initFold] at h
    rw [← Except.ok.inj h]
    exact hfit
  | cons p ps ih =>
    intro b b' h f hf hfit
    simp only [initFold] at h
    cases hstep : init_step g b p with
    | error e => rw [hstep] at h; cases h
    | ok b1 =>
      rw [hstep] at h
      refine ih b1 b' h f hf ?_
      by_cases h0 : g p = 0
      · rw [init_step_ok_zero h0 hstep]
        exact hfit
      · have hra := init_step_ok_pos h0 hstep
        have hfp : f p = g p := hf.2 p h0
        have hfver : ∀ q ∈ relativesList p, f q ≠ g p := by
          intro q hq he
          exact hf.1.2 p q (mem_relativesList.mp hq) (by rw [hfp, he])
        exact removeAll_ok_fits hra hfver (fits_update_collapsed hfit hfp)

theorem emptyBoard_wf : BoardWF emptyBoard := by
  intro p
  refine ⟨fun d hd => Finset.mem_Icc.mp hd, ?_⟩
  exact ⟨1, by decide⟩

theorem emptyBoard_consistent : Consistent emptyBoard := by
  intro p q _ v hp
  cases hp

theorem emptyBoard_fits {f : Point → ℕ} (hval : ValidAssign f) : Fits emptyBoard f := by
  intro p
  exact hval.1 p

theorem new_ok_spec {g : Grid} {s : SudokuSolver} (h : SudokuSolver.new g = .ok s) :
    initFold g emptyBoard allPoints = .ok s.board ∧ s.previous_states = [] := by
  unfold SudokuSolver.new at h
  cases hf : initFold g emptyBoard allPoints with
  | ok b =>
    rw [hf] at h
    simp only [Except.map] at h
    rw [← Except.ok.inj h]
    exact ⟨rfl, rfl⟩
  | error e =>
    rw [hf] at h
    simp [Except.map] at h

theorem new_good {g : Grid} {s : SudokuSolver} (hg : ∀ p, g p ≤ 9)
    (h : SudokuSolver.new g = .ok s) :
    StateInv g s ∧ SolPres g s ∧ StackOK s := by
  obtain ⟨hfold, hprev⟩ := new_ok_spec h
  refine ⟨⟨⟨?_, ?_, ?_⟩, ?_⟩, ?_, ?_, ?_⟩
  · exact initFold_wf hg allPoints emptyBoard s.board hfold emptyBoard_wf
  · exact initFold_consistent hg allPoints emptyBoard s.board hfold
      emptyBoard_consistent emptyBoard_wf
  · intro q h0
    exact initFold_clue allPoints emptyBoard s.board hfold allPoints_nodup q
      (mem_allPoints q) h0
  · rw [hprev]
    intro b hb
    exact absurd hb (List.not_mem_nil b)
  · intro f hf
    exact Or.inl (initFold_fits allPoints emptyBoard s.board hfold f hf
      (emptyBoard_fits hf.1))
  · rw [hprev]
    simp
  · rw [hprev]
    intro b hb
    exact absurd hb (List.not_mem_nil b)

/-! ### The solve run as a sequence of steps -/

theorem solveFuel_ok_spec : ∀ (n : ℕ) (s t : SudokuSolver),
    solveFuel n s = some (.ok t) →
      Reaches s t ∧
        get_coords_of_uncollapsed_cell_with_lowest_entropy t.board = none := by
  intro n
  induction n with
  | zero =>
    intro s t h
    simp [solveFuel] at h
  | succ n ih =>
    intro s t h
    rw [solveFuel] at h
    cases hit : solve_iteration s with
    | ok rr =>
      rw [hit] at h
      rcases rr with ⟨fl, s1⟩
      cases fl with
      | true =>
        replace h : (some (Except.ok s1) :
            Option (Except SudokuSolver SudokuSolver)) = some (.ok t) := h
        have ht : s1 = t := Except.ok.inj (Option.some.inj h)
        subst ht
        obtain ⟨hgc, hts⟩ := solve_iteration_true_iff.mp hit
        subst hts
        exact ⟨Relation.ReflTransGen.refl, hgc⟩
      | false =>
        obtain ⟨hr, hgc⟩ := ih s1 t h
        exact ⟨Relation.ReflTransGen.head (SolveStep.cont hit) hr, hgc⟩
    | error e =>
      rw [hit] at h
      revert h
      change (match e.previous_states with
        | b :: rest => solveFuel n ⟨b, rest⟩
        | [] => some (.error e)) = some (.ok t) → _
      cases hprev : e.previous_states with
      | nil =>
        intro h
        replace h : (some (Except.error e) :
            Option (Except SudokuSolver SudokuSolver)) = some (.ok t) := h
        simp at h
      | cons b rest =>
        intro h
        obtain ⟨hr, hgc⟩ := ih ⟨b, rest⟩ t h
        exact ⟨Relation.ReflTransGen.head (SolveStep.backtrack hit hprev) hr, hgc⟩

theorem solveFuel_error_spec : ∀ (n : ℕ) (s e : SudokuSolver),
    solveFuel n s = some (.error e) →
      e.previous_states = [] ∧
        ∃ t, Reaches s t ∧ solve_iteration t = .error e := by
  intro n
  induction n with
  | zero =>
    intro s e h
    simp [solveFuel] at h
  | succ n ih =>
    intro s e h
    rw [solveFuel] at h
    cases hit : solve_iteration s with
    | ok rr =>
      rw [hit] at h
      rcases rr with ⟨fl, s1⟩
      cases fl with
      | true =>
        replace h : (some (Except.ok s1) :
            Option (Except SudokuSolver SudokuSolver)) = some (.error e) := h
        simp at h
      | false =>
        obtain ⟨hpe, t, hr, hterr⟩ := ih s1 e h
        exact ⟨hpe, t, Relation.ReflTransGen.head (SolveStep.cont hit) hr, hterr⟩
    | error e' =>
      rw [hit] at h
      revert h
      change (match e'.previous_states with
        | b :: rest => solveFuel n ⟨b, rest⟩
        | [] => some (.error e')) = some (.error e) → _
      cases hprev : e'.previous_states with
      | nil =>
        intro h
        replace h : (some (Except.error e') :
            Option (Except SudokuSolver SudokuSolver)) = some (.error e) := h
        have he : e' = e := Except.error.inj (Option.some.inj h)
        subst he
        exact ⟨hprev, s, Relation.ReflTransGen.refl, hit⟩
      | cons b rest =>
        intro h
        obtain ⟨hpe, t, hr, hterr⟩ := ih ⟨b, rest⟩ e h
        exact ⟨hpe, t, Relation.ReflTransGen.head (SolveStep.backtrack hit hprev) hr, hterr⟩

theorem solveFuel_step {n : ℕ} {s s' : SudokuSolver} {r : Except SudokuSolver SudokuSolver}
    (h : solveFuel n s = some r) (hstep : SolveStep s s') :
    ∃ m, m < n ∧ solveFuel m s' = some r := by
  cases n with
  | zero => simp [solveFuel] at h
  | succ n =>
    rw [solveFuel] at h
    cases hit : solve_iteration s with
    | ok rr =>
      rw [hit] at h
      rcases rr with ⟨fl, s1⟩
      cases fl with
      | true =>
        exfalso
        obtain ⟨hgc, _⟩ := solve_iteration_true_iff.mp hit
        cases hstep with
        | cont hit' => rw [hit'] at hit; simp at hit
        | backtrack hit' _ => rw [hit'] at hit; simp at hit
      | false =>
        cases hstep with
        | cont hit' =>
          rw [hit'] at hit
          have : s1 = s' := by
            have := Except.ok.inj hit
            exact (Prod.mk.injEq _ _ _ _ ▸ this).2.symm
          subst this
          exact ⟨n, Nat.lt_succ_self n, h⟩
        | backtrack hit' _ => rw [hit'] at hit; simp at hit
    | error e =>
      rw [hit] at h
      revert h
      change (match e.previous_states with
        | b :: rest => solveFuel n ⟨b, rest⟩
        | [] => some (.error e)) = some r → _
      cases hstep with
      | cont hit' =>
        rw [hit'] at hit
        simp at hit
      | backtrack hit' hprev =>
        intro h
        rw [hit'] at hit
        have he := Except.error.inj hit
        subst he
        rw [hprev] at h
        exact ⟨n, Nat.lt_succ_self n, h⟩

theorem solveFuel_reaches {n : ℕ} {s t : SudokuSolver}
    {r : Except SudokuSolver SudokuSolver}
    (h : solveFuel n s = some r) (hr : Reaches s t) :
    ∃ m, m ≤ n ∧ solveFuel m t = some r := by
  induction hr with
  | refl => exact ⟨n, Nat.le_refl n, h⟩
  | tail hst hstep ih =>
    obtain ⟨m, hm, hfm⟩ := ih
    obtain ⟨m', hm', hfm'⟩ := solveFuel_step hfm hstep
    exact ⟨m', by omega, hfm'⟩

/-! ### Analysis of the correctness checker -/

theorem digitsAll_card : digitsAll.card = 9 := by decide

theorem check_hash_iff {h : Finset ℕ} :
    check_if_hash_has_all_digits h = true ↔ h = digitsAll := by
  unfold check_if_hash_has_all_digits
  rw [Bool.and_eq_true, decide_eq_true_eq, decide_eq_true_eq]
  constructor
  · rintro ⟨hsub, hdiff⟩
    exact Finset.Subset.antisymm hsub (Finset.sdiff_eq_empty_iff_subset.mp hdiff)
  · rintro rfl
    exact ⟨Finset.Subset.refl _, Finset.sdiff_self _⟩

/-- The digit read from one cell by `points_to_digits`. -/
theorem points_to_digits_mem {b : Board} {pts : Finset Point} {q : Point}
    (hq : q ∈ pts) :
    (match b q with
      | Cell.collapsed v => v
      | Cell.uncollapsed _ => 0) ∈ points_to_digits b pts :=
  Finset.mem_image_of_mem _ hq

theorem unit_check_iff {b : Board} {pts : Finset Point} (hcard : pts.card = 9) :
    check_if_points_have_all_digits b pts = true ↔
      ∀ d ∈ digitsAll, ∃! q, q ∈ pts ∧ b q = Cell.collapsed d := by
  unfold check_if_points_have_all_digits
  rw [check_hash_iff]
  unfold points_to_digits
  constructor
  · intro heq d hd
    have hinj : Set.InjOn (fun q => match b q with
        | Cell.collapsed v => v
        | Cell.uncollapsed _ => 0) pts := by
      apply Finset.injOn_of_card_image_eq
      rw [heq, hcard, digitsAll_card]
    have hd19 := Finset.mem_Icc.mp hd
    have hdm : d ∈ pts.image fun q => match b q with
        | Cell.collapsed v => v
        | Cell.uncollapsed _ => 0 := by rw [heq]; exact hd
    rcases Finset.mem_image.mp hdm with ⟨q, hqmem, hqval⟩
    have hbq : b q = Cell.collapsed d := by
      cases hb : b q with
      | collapsed v =>
        rw [hb] at hqval
        have hvd : v = d := hqval
        rw [hvd]
      | uncollapsed s =>
        rw [hb] at hqval
        have h0d : (0 : ℕ) = d := hqval
        omega
    refine ⟨q, ⟨hqmem, hbq⟩, ?_⟩
    rintro q' ⟨hq'mem, hbq'⟩
    apply hinj hq'mem hqmem
    simp only [hbq', hbq]
  · intro hfam
    have hsub : digitsAll ⊆ pts.image fun q => match b q with
        | Cell.collapsed v => v
        | Cell.uncollapsed _ => 0 := by
      intro d hd
      obtain ⟨q, ⟨hqmem, hbq⟩, _⟩ := hfam d hd
      refine Finset.mem_image.mpr ⟨q, hqmem, ?_⟩
      rw [hbq]
    have hle : (pts.image fun q => match b q with
        | Cell.collapsed v => v
        | Cell.uncollapsed _ => 0).card ≤ digitsAll.card := by
      rw [digitsAll_card, ← hcard]
      exact Finset.card_image_le
    exact (Finset.eq_of_subset_of_card_le hsub hle).symm

theorem get_row_card (y : Fin 9) : (get_row y).card = 9 := by
  unfold get_row
  rw [Finset.card_image_of_injective]
  · simp
  · intro a a' ha
    exact (Point.mk.injEq _ _ _ _ ▸ ha).1

theorem get_column_card (x : Fin 9) : (get_column x).card = 9 := by
  unfold get_column
  rw [Finset.card_image_of_injective]
  · simp
  · intro a a' ha
    exact (Point.mk.injEq _ _ _ _ ▸ ha).2

theorem get_region_card : ∀ p : Point, (get_region p).card = 9 := by decide

theorem get_region_anchor (p : Point) :
    get_region (get_region_coords p) = get_region p := by
  apply Finset.ext
  intro q
  rw [mem_get_region, mem_get_region]
  unfold get_region_coords
  simp only
  omega

theorem get_region_coords_mem_anchors :
    ∀ p : Point, (get_region_coords p).x ∈ regionAnchors ∧
      (get_region_coords p).y ∈ regionAnchors := by decide

theorem check_if_correct_iff (b : Board) :
    check_if_correct b = true ↔
      (∀ y : Fin 9, ∀ d ∈ digitsAll, ∃! q, q ∈ get_row y ∧ b q = Cell.collapsed d) ∧
      (∀ x : Fin 9, ∀ d ∈ digitsAll, ∃! q, q ∈ get_column x ∧ b q = Cell.collapsed d) ∧
      (∀ p : Point, ∀ d ∈ digitsAll, ∃! q, q ∈ get_region p ∧ b q = Cell.collapsed d) := by
  unfold check_if_correct check_rows check_columns check_regions
  rw [Bool.and_eq_true, Bool.and_eq_true]
  rw [List.all_eq_true, List.all_eq_true, List.all_eq_true]
  constructor
  · rintro ⟨⟨hrows, hcols⟩, hregs⟩
    refine ⟨?_, ?_, ?_⟩
    · intro y
      exact (unit_check_iff (get_row_card y)).mp (hrows y (List.mem_finRange y))
    · intro x
      exact (unit_check_iff (get_column_card x)).mp (hcols x (List.mem_finRange x))
    · intro p
      have hx := (get_region_coords_mem_anchors p).1
      have hy := (get_region_coords_mem_anchors p).2
      have hreg := hregs _ hy
      rw [List.all_eq_true] at hreg
      have hr := hreg _ hx
      have hanch : (⟨(get_region_coords p).x, (get_region_coords p).y⟩ : Point) =
          get_region_coords p := rfl
      rw [hanch, get_region_anchor] at hr
      exact (unit_check_iff (get_region_card p)).mp hr
  · rintro ⟨hrows, hcols, hregs⟩
    refine ⟨⟨?_, ?_⟩, ?_⟩
    · intro y _
      exact (unit_check_iff (get_row_card y)).mpr (hrows y)
    · intro x _
      exact (unit_check_iff (get_column_card x)).mpr (hcols x)
    · intro y _
      rw [List.all_eq_true]
      intro x _
      exact (unit_check_iff (get_region_card _)).mpr (hregs ⟨x, y⟩)

theorem check_false_of_uncollapsed {b : Board} {p : Point} {S : Finset ℕ}
    (hb : b p = Cell.uncollapsed S) : check_if_correct b = false := by
  by_contra hfalse
  have htrue : check_if_correct b = true := by
    cases h : check_if_correct b
    · exact absurd h hfalse
    · rfl
  have hrows : check_rows b = true := by
    unfold check_if_correct at htrue
    rw [Bool.and_eq_true, Bool.and_eq_true] at htrue
    exact htrue.1.1
  unfold check_rows at hrows
  rw [List.all_eq_true] at hrows
  have hrow := hrows p.y (List.mem_finRange p.y)
  unfold check_if_points_have_all_digits at hrow
  rw [check_hash_iff] at hrow
  have h0 : (0 : ℕ) ∈ points_to_digits b (get_row p.y) := by
    unfold points_to_digits
    refine Finset.mem_image.mpr ⟨p, mem_get_row.mpr rfl, ?_⟩
    rw [hb]
  rw [hrow] at h0
  exact absurd h0 (by decide)

theorem unit_complete {b : Board} {pts : Finset Point} (hcard : pts.card = 9)
    (hwf : BoardWF b) (hcons : Consistent b)
    (hall : ∀ p, (b p).isCollapsed = true)
    (hrel : ∀ q ∈ pts, ∀ r ∈ pts, q ≠ r → Related q r) :
    ∀ d ∈ digitsAll, ∃! q, q ∈ pts ∧ b q = Cell.collapsed d := by
  have hval : ∀ q : Point, ∃ v, b q = Cell.collapsed v ∧ 1 ≤ v ∧ v ≤ 9 := by
    intro q
    rcases Cell.isCollapsed_iff.mp (hall q) with ⟨v, hv⟩
    have := hwf q
    rw [hv] at this
    exact ⟨v, hv, this⟩
  have hinj : Set.InjOn (fun q => match b q with
      | Cell.collapsed v => v
      | Cell.uncollapsed _ => 0) pts := by
    intro q hq r hr heq
    by_contra hne
    obtain ⟨v, hbv, _⟩ := hval q
    obtain ⟨w, hbw, _⟩ := hval r
    simp only [hbv, hbw] at heq
    have hvw : v = w := heq
    subst hvw
    exact hcons q r (hrel q hq r hr hne) v hbv hbw
  have hsub : (pts.image fun q => match b q with
      | Cell.collapsed v => v
      | Cell.uncollapsed _ => 0) ⊆ digitsAll := by
    intro d hd
    rcases Finset.mem_image.mp hd with ⟨q, _, hqv⟩
    obtain ⟨v, hbv, hv1, hv9⟩ := hval q
    rw [hbv] at hqv
    have hvd : v = d := hqv
    subst hvd
    exact Finset.mem_Icc.mpr ⟨hv1, hv9⟩
  have heq : (pts.image fun q => match b q with
      | Cell.collapsed v => v
      | Cell.uncollapsed _ => 0) = digitsAll := by
    apply Finset.eq_of_subset_of_card_le hsub
    rw [digitsAll_card, Finset.card_image_of_injOn hinj, hcard]
  intro d hd
  have hdm : d ∈ pts.image fun q => match b q with
      | Cell.collapsed v => v
      | Cell.uncollapsed _ => 0 := by rw [heq]; exact hd
  rcases Finset.mem_image.mp hdm with ⟨q, hqmem, hqval⟩
  obtain ⟨v, hbv, _, _⟩ := hval q
  have hbq : b q = Cell.collapsed d := by
    rw [hbv] at hqval ⊢
    have hvd : v = d := hqval
    rw [hvd]
  refine ⟨q, ⟨hqmem, hbq⟩, ?_⟩
  rintro q' ⟨hq'mem, hbq'⟩
  apply hinj hq'mem hqmem
  simp only [hbq', hbq]

theorem check_of_solved {b : Board} (hwf : BoardWF b) (hcons : Consistent b)
    (hall : ∀ p, (b p).isCollapsed = true) : check_if_correct b = true := by
  rw [check_if_correct_iff]
  refine ⟨?_, ?_, ?_⟩
  · intro y
    refine unit_complete (get_row_card y) hwf hcons hall ?_
    intro q hq r hr hne
    rw [mem_get_row] at hq hr
    exact related_of_row (Ne.symm hne) (by rw [hq, hr])
  · intro x
    refine unit_complete (get_column_card x) hwf hcons hall ?_
    intro q hq r hr hne
    rw [mem_get_column] at hq hr
    exact related_of_column (Ne.symm hne) (by rw [hq, hr])
  · intro p
    refine unit_complete (get_region_card p) hwf hcons hall ?_
    intro q hq r hr hne
    exact related_of_region (Ne.symm hne) hq hr

/-! ### Construction succeeds on solvable grids -/

theorem init_step_error_spec {g : Grid} {b : Board} {p : Point} {u : Unit}
    (h : init_step g b p = .error u) :
    g p ≠ 0 ∧ ∃ be, removeAll (g p) (Function.update b p (Cell.collapsed (g p)))
      (relativesList p) = .error be := by
  unfold init_step at h
  by_cases h0 : g p = 0
  · rw [if_pos h0] at h
    cases h
  · rw [if_neg h0] at h
    refine ⟨h0, ?_⟩
    cases hq : propagate_collapse (Function.update b p (Cell.new_filled (g p))) p (g p) with
    | ok c => rw [hq] at h; cases h
    | error e => exact ⟨e, hq⟩

theorem initFold_error_noSolution {g : Grid} :
    ∀ (l : List Point) (b : Board) (u : Unit), initFold g b l = .error u →
      ∀ f, IsSolution g f → Fits b f → False := by
  intro l
  induction l with
  | nil =>
    intro b u h
    simp only [initFold] at h
    exact Except.noConfusion h
  | cons p ps ih =>
    intro b u h f hf hfit
    simp only [initFold] at h
    cases hstep : init_step g b p with
    | error e =>
      obtain ⟨h0, be, hra⟩ := init_step_error_spec hstep
      have hfp : f p = g p := hf.2 p h0
      have hfver : ∀ q ∈ relativesList p, f q ≠ g p := by
        intro q hq he
        exact hf.1.2 p q (mem_relativesList.mp hq) (by rw [hfp, he])
      exact removeAll_error_noFit (relativesList p) _ be f hra hfver
        (fits_update_collapsed hfit hfp)
    | ok b1 =>
      rw [hstep] at h
      refine ih b1 u h f hf ?_
      by_cases h0 : g p = 0
      · rw [init_step_ok_zero h0 hstep]
        exact hfit
      · have hra := init_step_ok_pos h0 hstep
        have hfp : f p = g p := hf.2 p h0
        have hfver : ∀ q ∈ relativesList p, f q ≠ g p := by
          intro q hq he
          exact hf.1.2 p q (mem_relativesList.mp hq) (by rw [hfp, he])
        exact removeAll_ok_fits hra hfver (fits_update_collapsed hfit hfp)

theorem new_ok_of_solvable {g : Grid} (hf : ∃ f, IsSolution g f) :
    ∃ s, SudokuSolver.new g = .ok s := by
  cases h : SudokuSolver.new g with
  | ok s => exact ⟨s, rfl⟩
  | error u =>
    exfalso
    unfold SudokuSolver.new at h
    cases hfold : initFold g emptyBoard allPoints with
    | ok b => rw [hfold] at h; simp [Except.map] at h
    | error u' =>
      obtain ⟨f, hsol⟩ := hf
      exact initFold_error_noSolution allPoints emptyBoard u' hfold f hsol
        (emptyBoard_fits hsol.1)

/-! ### Stack length bound -/

theorem chain_length_le {l : List Board}
    (hc : List.Chain' (fun a b => uncount a < uncount b) l)
    (h1 : ∀ b ∈ l, 1 ≤ uncount b) : l.length ≤ 81 := by
  have hmap : List.Chain' (· < ·) (l.map uncount) := by
    rw [List.chain'_map]
    exact hc
  have hpair : List.Pairwise (· < ·) (l.map uncount) :=
    List.chain'_iff_pairwise.mp hmap
  have hnd : (l.map uncount).Nodup := hpair.imp Nat.ne_of_lt
  have hsub : (l.map uncount).toFinset ⊆ Finset.Icc 1 81 := by
    intro v hv
    rw [List.mem_toFinset, List.mem_map] at hv
    obtain ⟨b, hb, hbv⟩ := hv
    rw [Finset.mem_Icc, ← hbv]
    exact ⟨h1 b hb, uncount_le_81 b⟩
  have hcard := Finset.card_le_card hsub
  rw [List.toFinset_card_of_nodup hnd, List.length_map] at hcard
  simpa [Nat.card_Icc] using hcard

theorem stackOK_len_le {s : SudokuSolver} (h : StackOK s) :
    s.previous_states.length ≤ 81 :=
  chain_length_le h.1.tail h.2

/-! ### Propagation never changes collapsed cells, even on failure -/

theorem removeAll_error_shrinks {v : ℕ} :
    ∀ (l : List Point) (b be : Board), removeAll v b l = .error be →
      ∀ q, Cell.Shrinks (be q) (b q) := by
  intro l
  induction l with
  | nil =>
    intro b be h
    simp only [removeAll] at h
    exact Except.noConfusion h
  | cons q0 qs ih =>
    intro b be h q
    simp only [removeAll] at h
    cases hr : (b q0).remove v with
    | error e =>
      rw [hr] at h
      have hbe : b = be := Except.error.inj h
      rw [← hbe]
      exact Cell.Shrinks.refl _
    | ok c =>
      rw [hr] at h
      refine Cell.Shrinks.trans (ih (Function.update b q0 c) be h q) ?_
      by_cases hq : q = q0
      · rw [hq, Function.update_same]
        exact Cell.remove_ok_shrinks hr
      · rw [Function.update_noteq hq]
        exact Cell.Shrinks.refl _

/-! ### The claims -/

/-- C9: for every coordinate (x, y) with x and y in [0, 9),
`get_relatives` returns exactly the set of coordinates that share its row,
its column, or its 3×3 region (the region whose top-left corner is
(x/3*3, y/3*3)), excluding the coordinate itself, and this set contains at
most 20 distinct coordinates. -/
theorem C9_relatives_exact :
    ∀ p : Point,
      get_relatives p = (Finset.univ.filter fun q => q ≠ p ∧
        (q.y = p.y ∨ q.x = p.x ∨
          ((p.x.val / 3 * 3 ≤ q.x.val ∧ q.x.val < p.x.val / 3 * 3 + 3) ∧
           (p.y.val / 3 * 3 ≤ q.y.val ∧ q.y.val < p.y.val / 3 * 3 + 3)))) ∧
      (get_relatives p).card ≤ 20 := by
  have hcard : ∀ p : Point, (get_relatives p).card ≤ 20 := by decide
  intro p
  refine ⟨?_, hcard p⟩
  apply Finset.ext
  intro q
  rw [mem_get_relatives, Finset.mem_filter]
  constructor
  · rintro ⟨hne, hcase⟩
    refine ⟨Finset.mem_univ q, hne, ?_⟩
    rcases hcase with h | h | h
    · exact Or.inl h
    · exact Or.inr (Or.inl h)
    · exact Or.inr (Or.inr (by omega))
  · rintro ⟨_, hne, hcase⟩
    refine ⟨hne, ?_⟩
    rcases hcase with h | h | h
    · exact Or.inl h
    · exact Or.inr (Or.inl h)
    · exact Or.inr (Or.inr (by omega))

/-- C4: for every (well-formed) board, the entropy scan returns `none`
exactly when no Uncollapsed cell exists; otherwise it returns an
Uncollapsed cell of minimal entropy among all Uncollapsed cells, and on
ties the earliest one in row-major order (smallest y, then smallest x). -/
theorem C4_lowest_entropy (b : Board) (hwf : BoardWF b) :
    (get_coords_of_uncollapsed_cell_with_lowest_entropy b = none ↔
      ∀ p, (b p).isCollapsed = true) ∧
    (∀ p, get_coords_of_uncollapsed_cell_with_lowest_entropy b = some p →
      ¬(b p).isCollapsed = true ∧
      (∀ q, ¬(b q).isCollapsed = true → (b p).get_entropy ≤ (b q).get_entropy) ∧
      (∀ q, ¬(b q).isCollapsed = true → (b q).get_entropy = (b p).get_entropy →
        rmIndex p ≤ rmIndex q)) :=
  ⟨gc_none_iff hwf, fun p h => gc_some_spec h⟩

/-- Witness for C4 at a concrete board: solved except one two-candidate
cell. -/
theorem C4_lowest_entropy_witness :
    (get_coords_of_uncollapsed_cell_with_lowest_entropy twoCandidateBoard = none ↔
      ∀ p, (twoCandidateBoard p).isCollapsed = true) ∧
    (∀ p, get_coords_of_uncollapsed_cell_with_lowest_entropy twoCandidateBoard = some p →
      ¬(twoCandidateBoard p).isCollapsed = true ∧
      (∀ q, ¬(twoCandidateBoard q).isCollapsed = true →
        (twoCandidateBoard p).get_entropy ≤ (twoCandidateBoard q).get_entropy) ∧
      (∀ q, ¬(twoCandidateBoard q).isCollapsed = true →
        (twoCandidateBoard q).get_entropy = (twoCandidateBoard p).get_entropy →
        rmIndex p ≤ rmIndex q)) :=
  C4_lowest_entropy twoCandidateBoard (by decide)

/-- C6: `check_if_correct` returns true exactly when every row, column
and 3×3 region of the board contains each digit 1 through 9 exactly once
among its Collapsed cells; in particular it returns false whenever any
cell is still Uncollapsed (such a cell reads as digit 0).  It is a pure
function of the board, so it cannot mutate it. -/
theorem C6_check_correct (b : Board) :
    (check_if_correct b = true ↔
      (∀ y : Fin 9, ∀ d ∈ digitsAll, ∃! q, q ∈ get_row y ∧ b q = Cell.collapsed d) ∧
      (∀ x : Fin 9, ∀ d ∈ digitsAll, ∃! q, q ∈ get_column x ∧ b q = Cell.collapsed d) ∧
      (∀ p : Point, ∀ d ∈ digitsAll, ∃! q, q ∈ get_region p ∧ b q = Cell.collapsed d)) ∧
    (∀ p S, b p = Cell.uncollapsed S → check_if_correct b = false) :=
  ⟨check_if_correct_iff b, fun p S h => check_false_of_uncollapsed h⟩

/-- Witness for C6: a board with an uncollapsed cell fails the check. -/
theorem C6_check_correct_witness : check_if_correct twoCandidateBoard = false :=
  (C6_check_correct twoCandidateBoard).2 ⟨0, 0⟩ {1, 2} rfl

/-- C5: whenever `collapse_cell_and_save_state` collapses a cell that had
more than one candidate, the board it pushes onto the checkpoint stack is
the board as it was immediately before the collapse (before any
propagation) with only that cell replaced by the shadow value, an
Uncollapsed cell holding the original candidate set minus the chosen
(lowest) value; the shadow therefore strictly excludes the candidate that
was just tried.  The checkpoint is pushed whether or not the subsequent
propagation succeeds. -/
theorem C5_checkpoint_shadow (s : SudokuSolver) (p : Point) (S : Finset ℕ)
    (hb : s.board p = Cell.uncollapsed S) (hcard : 1 < S.card) :
    Cell.chooseMin S ∈ S ∧
    Cell.chooseMin S ∉ S.erase (Cell.chooseMin S) ∧
    (∀ t, collapse_cell_and_save_state s p = .ok t →
      t.previous_states =
        Function.update s.board p
          (Cell.uncollapsed (S.erase (Cell.chooseMin S))) :: s.previous_states) ∧
    (∀ t, collapse_cell_and_save_state s p = .error t →
      t.previous_states =
        Function.update s.board p
          (Cell.uncollapsed (S.erase (Cell.chooseMin S))) :: s.previous_states) := by
  have hm : Cell.chooseMin S ∈ S := Cell.chooseMin_mem (Finset.card_pos.mp (by omega))
  refine ⟨hm, Finset.not_mem_erase _ _, ?_, ?_⟩
  · intro t ht
    rcases collapse_cases hb with ⟨b2, hp, hok⟩ | ⟨be, hp, herr⟩
    · have heq := Except.ok.inj (hok.symm.trans ht)
      rw [← heq]
      dsimp only
      rw [if_pos hcard]
    · exact Except.noConfusion (herr.symm.trans ht)
  · intro t ht
    rcases collapse_cases hb with ⟨b2, hp, hok⟩ | ⟨be, hp, herr⟩
    · exact Except.noConfusion (hok.symm.trans ht)
    · have heq := Except.error.inj (herr.symm.trans ht)
      rw [← heq]
      dsimp only
      rw [if_pos hcard]

/-- Witness for C5 at a concrete state: the empty board's top-left cell
holds all nine candidates. -/
theorem C5_checkpoint_shadow_witness :
    Cell.chooseMin (Finset.Icc 1 9) ∈ (Finset.Icc 1 9 : Finset ℕ) ∧
    Cell.chooseMin (Finset.Icc 1 9) ∉
      (Finset.Icc 1 9 : Finset ℕ).erase (Cell.chooseMin (Finset.Icc 1 9)) ∧
    (∀ t, collapse_cell_and_save_state ⟨emptyBoard, []⟩ ⟨0, 0⟩ = .ok t →
      t.previous_states =
        Function.update emptyBoard ⟨0, 0⟩
          (Cell.uncollapsed ((Finset.Icc 1 9).erase
            (Cell.chooseMin (Finset.Icc 1 9)))) :: ([] : List Board)) ∧
    (∀ t, collapse_cell_and_save_state ⟨emptyBoard, []⟩ ⟨0, 0⟩ = .error t →
      t.previous_states =
        Function.update emptyBoard ⟨0, 0⟩
          (Cell.uncollapsed ((Finset.Icc 1 9).erase
            (Cell.chooseMin (Finset.Icc 1 9)))) :: ([] : List Board)) :=
  C5_checkpoint_shadow ⟨emptyBoard, []⟩ ⟨0, 0⟩ (Finset.Icc 1 9) rfl (by decide)

/-- C3: every starting grid (entries 0..9) containing two equal nonzero
digits that share a row, column, or 3×3 region makes `SudokuSolver::new`
return the contradiction error rather than a constructed solver. -/
theorem C3_duplicate_contradiction (g : Grid) (hg : ∀ r, g r ≤ 9)
    (p q : Point) (hrel : Related p q) (hv : g p = g q) (hnz : g p ≠ 0) :
    SudokuSolver.new g = .error () := by
  cases h : SudokuSolver.new g with
  | error u => cases u; rfl
  | ok s =>
    exfalso
    obtain ⟨hfold, _⟩ := new_ok_spec h
    have hcons : Consistent s.board :=
      initFold_consistent hg allPoints emptyBoard s.board hfold
        emptyBoard_consistent emptyBoard_wf
    have hp := initFold_clue allPoints emptyBoard s.board hfold allPoints_nodup p
      (mem_allPoints p) hnz
    have hnzq : g q ≠ 0 := by rw [← hv]; exact hnz
    have hq := initFold_clue allPoints emptyBoard s.board hfold allPoints_nodup q
      (mem_allPoints q) hnzq
    exact hcons p q hrel (g p) hp (by rw [hv]; exact hq)

/-- Witness for C3: a grid with two fives in the first row fails
construction. -/
theorem C3_duplicate_contradiction_witness :
    SudokuSolver.new dupGrid = .error () :=
  C3_duplicate_contradiction dupGrid (by decide) ⟨0, 0⟩ ⟨1, 0⟩ (by decide) rfl (by decide)

/-- C7 (counterexample): the checkpoint stack also grows on a collapse
that discards exactly ONE alternative candidate: a cell with exactly two
candidates (so `S.card - 1 = 1` alternatives are discarded, fewer than
two) still causes a push, refuting the reading that the stack grows by one
entry only on a collapse that discards at least two alternative
candidates. -/
theorem C7_push_on_two_candidates :
    twoCandidateSolver.board ⟨0, 0⟩ = Cell.uncollapsed {1, 2} ∧
    ({1, 2} : Finset ℕ).card - 1 = 1 ∧
    twoCandidateSolver.previous_states.length = 0 ∧
    stackLenOf (collapse_cell_and_save_state twoCandidateSolver ⟨0, 0⟩) = 1 := by
  refine ⟨rfl, rfl, rfl, ?_⟩
  decide

/-- C7 (amended): the checkpoint stack starts empty, grows by exactly one
entry on each collapse of a cell that had at least two remaining
candidates (equivalently, that discarded at least one alternative
candidate) — whether or not the subsequent propagation succeeds — and on
no other collapse, and shrinks by exactly one entry on each backtrack. -/
theorem C7_stack_discipline :
    (∀ g s, SudokuSolver.new g = .ok s → s.previous_states = []) ∧
    (∀ s p S, s.board p = Cell.uncollapsed S →
      (1 < S.card →
        stackLenOf (collapse_cell_and_save_state s p) =
          s.previous_states.length + 1) ∧
      (¬1 < S.card →
        stackLenOf (collapse_cell_and_save_state s p) =
          s.previous_states.length)) ∧
    (∀ s e b rest, solve_iteration s = .error e → e.previous_states = b :: rest →
      ∀ t, SolveStep s t →
        t.previous_states.length + 1 = e.previous_states.length) := by
  refine ⟨?_, ?_, ?_⟩
  · intro g s h
    exact (new_ok_spec h).2
  · intro s p S hb
    constructor
    · intro hcard
      rcases collapse_cases hb with ⟨b2, hp, hok⟩ | ⟨be, hp, herr⟩
      · rw [hok]
        unfold stackLenOf
        dsimp only
        rw [if_pos hcard]
        rfl
      · rw [herr]
        unfold stackLenOf
        dsimp only
        rw [if_pos hcard]
        rfl
    · intro hcard
      rcases collapse_cases hb with ⟨b2, hp, hok⟩ | ⟨be, hp, herr⟩
      · rw [hok]
        unfold stackLenOf
        dsimp only
        rw [if_neg hcard]
      · rw [herr]
        unfold stackLenOf
        dsimp only
        rw [if_neg hcard]
  · intro s e b rest hit hprev t hstep
    cases hstep with
    | cont hit' =>
      rw [hit'] at hit
      exact Except.noConfusion hit
    | backtrack hit' hprev' =>
      rw [hit'] at hit
      have he := Except.error.inj hit
      subst he
      rw [hprev']
      rfl

/-- Witness for the amended C7: collapsing the two-candidate cell pushes
exactly one checkpoint. -/
theorem C7_stack_discipline_witness :
    stackLenOf (collapse_cell_and_save_state twoCandidateSolver ⟨0, 0⟩) =
      twoCandidateSolver.previous_states.length + 1 :=
  (C7_stack_discipline.2.1 twoCandidateSolver ⟨0, 0⟩ {1, 2} rfl).1 (by decide)

/-! ### Concrete solutions used by the test inputs -/

theorem fullGrid_nonzero : ∀ p : Point, fullGrid p ≠ 0 := by decide

theorem fullGrid_valid : ValidAssign (fun p => fullGrid p) := by
  constructor
  · decide
  · intro p q hrel
    have harith : ∀ p q : Point, (q ≠ p ∧ (q.y = p.y ∨ q.x = p.x ∨
        (q.x.val / 3 = p.x.val / 3 ∧ q.y.val / 3 = p.y.val / 3))) →
        fullGrid p ≠ fullGrid q := by decide
    exact harith p q (related_iff.mp hrel)

theorem fullGrid_solution : IsSolution fullGrid (fun p => fullGrid p) :=
  ⟨fullGrid_valid, fun _ _ => rfl⟩

theorem fullGrid_unique : ∀ f, IsSolution fullGrid f → f = fun p => fullGrid p := by
  intro f hf
  funext p
  exact hf.2 p (fullGrid_nonzero p)

theorem oneGrid_solution : IsSolution oneGrid (fun p => fullGrid p) :=
  ⟨fullGrid_valid, by decide⟩

/-- C8: at every point during execution of the solve loop the checkpoint
stack holds at most 81 boards — at every state the loop visits, and also
in the transient state inside a failing iteration (after the push, when
the contradiction is detected). -/
theorem C8_stack_bounded (g : Grid) (s0 t : SudokuSolver) (hg : ∀ p, g p ≤ 9)
    (hnew : SudokuSolver.new g = .ok s0) (hr : Reaches s0 t) :
    t.previous_states.length ≤ 81 ∧
    ∀ e, solve_iteration t = .error e → e.previous_states.length ≤ 81 := by
  have hgood := reaches_good hr (new_good hg hnew)
  have hstk := hgood.2.2
  refine ⟨stackOK_len_le hstk, ?_⟩
  intro e he
  obtain ⟨p, S, hgc, hS, hcol⟩ := solve_iteration_error_spec he
  rcases collapse_cases hS with ⟨b2, hp, hok⟩ | ⟨be, hp, herr⟩
  · rw [hok] at hcol
    exact Except.noConfusion hcol
  · have heq := Except.error.inj (herr.symm.trans hcol)
    rw [← heq]
    dsimp only
    by_cases hcard : 1 < S.card
    · rw [if_pos hcard]
      have hush : uncount (Function.update t.board p
          (Cell.uncollapsed (S.erase (Cell.chooseMin S)))) = uncount t.board :=
        uncount_update_uncollapsed hS
      have hchain := chain_replace_head_le hstk.1 (Nat.le_of_eq hush)
      refine chain_length_le hchain ?_
      intro bb hbb
      rcases List.mem_cons.mp hbb with hbb | hbb
      · rw [hbb, hush]
        exact uncount_pos hS
      · exact hstk.2 bb hbb
    · rw [if_neg hcard]
      exact stackOK_len_le hstk

/-- Witness for C8 at the one-clue grid. -/
theorem C8_stack_bounded_witness :
    ∃ s0, SudokuSolver.new oneGrid = .ok s0 ∧
      s0.previous_states.length ≤ 81 ∧
      ∀ e, solve_iteration s0 = .error e → e.previous_states.length ≤ 81 := by
  obtain ⟨s0, hnew⟩ := new_ok_of_solvable ⟨fun p => fullGrid p, oneGrid_solution⟩
  obtain ⟨h1, h2⟩ := C8_stack_bounded oneGrid s0 s0 (by decide) hnew
    Relation.ReflTransGen.refl
  exact ⟨s0, hnew, h1, h2⟩

/-- C10: every cell collapsed by `new` from a nonzero grid entry stays
collapsed to that digit in the live board at every state the solve loop
visits and in every checkpoint, the entropy scan never selects a collapsed
cell, and a propagation pass never changes a collapsed cell's value,
whether it succeeds or fails. -/
theorem C10_clues_stable (g : Grid) (s0 t : SudokuSolver) (hg : ∀ p, g p ≤ 9)
    (hnew : SudokuSolver.new g = .ok s0) (hr : Reaches s0 t) :
    (∀ p, g p ≠ 0 → t.board p = Cell.collapsed (g p)) ∧
    (∀ b, b ∈ t.previous_states → ∀ p, g p ≠ 0 → b p = Cell.collapsed (g p)) ∧
    (∀ p, get_coords_of_uncollapsed_cell_with_lowest_entropy t.board = some p →
      ¬(t.board p).isCollapsed = true) ∧
    (∀ (v : ℕ) (bb : Board) (l : List Point) (bb' : Board),
      removeAll v bb l = .ok bb' →
      ∀ p w, bb p = Cell.collapsed w → bb' p = Cell.collapsed w) ∧
    (∀ (v : ℕ) (bb : Board) (l : List Point) (be : Board),
      removeAll v bb l = .error be →
      ∀ p w, bb p = Cell.collapsed w → be p = Cell.collapsed w) := by
  have hgood := reaches_good hr (new_good hg hnew)
  refine ⟨hgood.1.1.2.2, fun b hb => (hgood.1.2 b hb).2.2, ?_, ?_, ?_⟩
  · intro p h
    exact (gc_some_spec h).1
  · intro v bb l bb' h p w hw
    exact removeAll_ok_collapsed_preserved h hw
  · intro v bb l be h p w hw
    exact ((removeAll_error_shrinks l bb be h) p).of_collapsed hw

/-- Witness for C10 at the one-clue grid: the given digit is collapsed in
the constructed solver. -/
theorem C10_clues_stable_witness :
    ∃ s0, SudokuSolver.new oneGrid = .ok s0 ∧
      s0.board ⟨0, 0⟩ = Cell.collapsed (oneGrid ⟨0, 0⟩) := by
  obtain ⟨s0, hnew⟩ := new_ok_of_solvable ⟨fun p => fullGrid p, oneGrid_solution⟩
  have h := (C10_clues_stable oneGrid s0 s0 (by decide) hnew
    Relation.ReflTransGen.refl).1 ⟨0, 0⟩ (by decide)
  exact ⟨s0, hnew, h⟩

/-- C2: the solve loop reports the unsolvable error exactly when a
propagation contradiction happens with an empty checkpoint stack; at that
return the stack is empty; and every contradiction hit while a checkpoint
exists is recovered by popping the most recent checkpoint and restoring it
as the live board, after which the loop continues to the same overall
result — the contradiction itself is not reported to the caller. -/
theorem C2_unsolvable_reporting (n : ℕ) (s : SudokuSolver)
    (r : Except SudokuSolver SudokuSolver) (h : solveFuel n s = some r) :
    ((∃ e, r = .error e) ↔
      ∃ t e, Reaches s t ∧ solve_iteration t = .error e ∧
        e.previous_states = []) ∧
    (∀ e, r = .error e → e.previous_states = []) ∧
    (∀ t e b rest, Reaches s t → solve_iteration t = .error e →
      e.previous_states = b :: rest →
      SolveStep t ⟨b, rest⟩ ∧ Reaches s ⟨b, rest⟩ ∧
        ∃ m, m ≤ n ∧ solveFuel m ⟨b, rest⟩ = some r) := by
  refine ⟨⟨?_, ?_⟩, ?_, ?_⟩
  · rintro ⟨e, he⟩
    subst he
    obtain ⟨hpe, t, hrt, hterr⟩ := solveFuel_error_spec n s e h
    exact ⟨t, e, hrt, hterr, hpe⟩
  · rintro ⟨t, e, hrt, hterr, hpe⟩
    obtain ⟨m, _, hfm⟩ := solveFuel_reaches h hrt
    cases m with
    | zero => simp [solveFuel] at hfm
    | succ m =>
      rw [solveFuel] at hfm
      rw [hterr] at hfm
      revert hfm
      change (match e.previous_states with
        | b :: rest => solveFuel m ⟨b, rest⟩
        | [] => some (.error e)) = some r → _
      rw [hpe]
      intro hfm
      replace hfm : (some (Except.error e) :
          Option (Except SudokuSolver SudokuSolver)) = some r := hfm
      exact ⟨e, (Option.some.inj hfm).symm⟩
  · intro e he
    subst he
    exact (solveFuel_error_spec n s e h).1
  · intro t e b rest hrt hterr hprev
    have hstep : SolveStep t ⟨b, rest⟩ := SolveStep.backtrack hterr hprev
    have hr2 : Reaches s ⟨b, rest⟩ := Relation.ReflTransGen.tail hrt hstep
    obtain ⟨m, hm, hfm⟩ := solveFuel_reaches h hr2
    exact ⟨hstep, hr2, m, hm, hfm⟩

/-- Witness for C2 on a concrete run: the fully collapsed solver finishes
in one iteration with a success result, so the run reports an error
exactly when some visited state hits a contradiction with no checkpoint
left — which here never happens. -/
theorem C2_unsolvable_reporting_witness :
    (∃ e, (Except.ok fullSolver : Except SudokuSolver SudokuSolver) = .error e) ↔
      ∃ t e, Reaches fullSolver t ∧ solve_iteration t = .error e ∧
        e.previous_states = [] :=
  (C2_unsolvable_reporting 1 fullSolver (.ok fullSolver) (by rfl)).1

/-- C1: for every valid starting grid (entries at most 9) with a unique
solution on which `SudokuSolver::new` succeeds, `solve` terminates with a
success result, after which `check_if_correct` holds and every cell of the
board is Collapsed. -/
theorem C1_solve_completes (g : Grid) (s : SudokuSolver) (hg : ∀ p, g p ≤ 9)
    (hnew : SudokuSolver.new g = .ok s) (hsol : ∃! f, IsSolution g f) :
    ∃ t, SudokuSolver.solve s = .ok t ∧ check_if_correct t.board = true ∧
      ∀ p, (t.board p).isCollapsed = true := by
  have hgood := new_good hg hnew
  have hrun := solve_eq_solveFuel s
  cases hres : SudokuSolver.solve s with
  | error e =>
    exfalso
    rw [hres] at hrun
    obtain ⟨hpe, t, hrt, hterr⟩ := solveFuel_error_spec _ _ _ hrun
    have hgt := reaches_good hrt hgood
    obtain ⟨p, S, hgc, hS, hcol⟩ := solve_iteration_error_spec hterr
    rcases collapse_cases hS with ⟨b2, hp, hok⟩ | ⟨be, hp, herr⟩
    · rw [hok] at hcol
      exact Except.noConfusion hcol
    · have heq := Except.error.inj (herr.symm.trans hcol)
      rw [← heq] at hpe
      dsimp only at hpe
      by_cases hcard : 1 < S.card
      · rw [if_pos hcard] at hpe
        exact List.noConfusion hpe
      · rw [if_neg hcard] at hpe
        obtain ⟨f, hf, _⟩ := hsol
        rcases hgt.2.1 f hf with hfit | ⟨b, hb, _⟩
        · have hfS : f p ∈ S := fits_uncollapsed hfit hS
          have hm : Cell.chooseMin S ∈ S := Cell.chooseMin_mem ⟨f p, hfS⟩
          have hc1 : S.card ≤ 1 := by omega
          have hfm : f p = Cell.chooseMin S :=
            Finset.card_le_one.mp hc1 (f p) hfS (Cell.chooseMin S) hm
          have hfver : ∀ q ∈ relativesList p, f q ≠ Cell.chooseMin S := by
            intro q hq heqv
            exact hf.1.2 p q (mem_relativesList.mp hq) (by rw [hfm, heqv])
          have hp2 : removeAll (Cell.chooseMin S)
              (Function.update t.board p (Cell.collapsed (Cell.chooseMin S)))
              (relativesList p) = .error be := hp
          exact removeAll_error_noFit (relativesList p)
            (Function.update t.board p (Cell.collapsed (Cell.chooseMin S)))
            be f hp2 hfver (fits_update_collapsed hfit hfm)
        · rw [hpe] at hb
          exact absurd hb (List.not_mem_nil b)
  | ok t =>
    rw [hres] at hrun
    obtain ⟨hrt, hgc⟩ := solveFuel_ok_spec _ _ _ hrun
    have hgt := reaches_good hrt hgood
    have hall : ∀ p, (t.board p).isCollapsed = true :=
      (gc_none_iff hgt.1.1.1).mp hgc
    exact ⟨t, rfl, check_of_solved hgt.1.1.1 hgt.1.1.2.1 hall, hall⟩

/-- Witness for C1: a complete valid grid has a unique solution, `new`
succeeds on it, and `solve` finishes correctly. -/
theorem C1_solve_completes_witness :
    ∃ s t, SudokuSolver.new fullGrid = .ok s ∧ SudokuSolver.solve s = .ok t ∧
      check_if_correct t.board = true ∧ ∀ p, (t.board p).isCollapsed = true := by
  obtain ⟨s, hnew⟩ := new_ok_of_solvable ⟨fun p => fullGrid p, fullGrid_solution⟩
  have huniq : ∃! f, IsSolution fullGrid f :=
    ⟨fun p => fullGrid p, fullGrid_solution, fullGrid_unique⟩
  obtain ⟨t, ht⟩ := C1_solve_completes fullGrid s (by decide) hnew huniq
  exact ⟨s, t, hnew, ht⟩
